import Mathlib

/-!
Verification of the `mcp-launch` supervisor (Go) against its natural-language
specification.  The Go code is shallowly embedded: maps become association
lists with Go-map lookup/insert semantics, JSON documents become a mutual
inductive `Json`, byte streams become `List Char`, and every fallible or
effectful boundary (CSPRNG reads, HTTP fetches, child stdout) becomes an
explicit input.  Each embedded definition is translated from the source file
it names in its doc comment.
-/

set_option maxRecDepth 40000

/- ## Association lists with Go map semantics

Go maps have unique keys; lookups on missing keys yield the zero value and
`m[k] = v` replaces any existing binding.  We model them as `List (String × α)`
with first-match lookup and replace-or-append insertion. -/

abbrev Smap (α : Type) : Type := List (String × α)

def findS {α : Type} (m : Smap α) (k : String) : Option α :=
  match m with
  | [] => none
  | (k1, v) :: rest => if k1 = k then some v else findS rest k

def setS {α : Type} (m : Smap α) (k : String) (v : α) : Smap α :=
  match m with
  | [] => [(k, v)]
  | (k1, v1) :: rest => if k1 = k then (k, v) :: rest else (k1, v1) :: setS rest k v

def keysS {α : Type} (m : Smap α) : List String := m.map Prod.fst

theorem findS_setS_self {α : Type} (m : Smap α) (k : String) (v : α) :
    findS (setS m k v) k = some v := by
  induction m with
  | nil => simp [setS, findS]
  | cons hd tl ih =>
    by_cases h : hd.1 = k
    · simp [setS, h, findS]
    · simp [setS, h, findS, ih]

theorem findS_setS_ne {α : Type} (m : Smap α) (k k1 : String) (v : α) (h : k1 ≠ k) :
    findS (setS m k v) k1 = findS m k1 := by
  have hkk : ¬ (k = k1) := fun hh => h hh.symm
  induction m with
  | nil => simp [setS, findS, hkk]
  | cons hd tl ih =>
    by_cases hk : hd.1 = k
    · simp [setS, hk, findS, hkk]
    · simp only [setS, hk, if_false, findS]
      by_cases h2 : hd.1 = k1 <;> simp [h2, ih]

theorem keysS_setS_subset {α : Type} (m : Smap α) (k : String) (v : α) :
    keysS (setS m k v) ⊆ k :: keysS m := by
  induction m with
  | nil => simp [setS, keysS]
  | cons hd tl ih =>
    by_cases h : hd.1 = k
    · intro a ha
      simp only [setS, h, if_true, keysS, List.map_cons, List.mem_cons] at ha ⊢
      rcases ha with ha | ha
      · exact Or.inl ha
      · exact Or.inr (Or.inr ha)
    · intro a ha
      simp only [setS, h, if_false, keysS, List.map_cons, List.mem_cons] at ha ⊢
      rcases ha with ha | ha
      · exact Or.inr (Or.inl ha)
      · rcases List.mem_cons.mp (ih ha) with hb | hb
        · exact Or.inl hb
        · exact Or.inr (Or.inr hb)

theorem findS_isSome_setS {α : Type} (m : Smap α) (k k1 : String) (v : α)
    (h : (findS m k1).isSome) : (findS (setS m k v) k1).isSome := by
  by_cases hk : k1 = k
  · subst hk; simp [findS_setS_self]
  · rwa [findS_setS_ne _ _ _ _ hk]

/- ## Go string primitives (over `List Char`)

Translated from the Go standard library semantics used by the repository:
`strings.TrimSpace` (ASCII whitespace set, as in Go's `asciiSpace` table),
`strings.ToLower` / `ToUpper` (ASCII case map — the repository only feeds it
ASCII section names, HTTP methods and header tags), `strings.HasPrefix`,
`strings.SplitN(s, sep, 2)`, `strings.TrimPrefix`, `strings.TrimLeft`,
`strings.TrimRight`. -/

def goIsSpace (c : Char) : Bool :=
  c = ' ' || c = '\t' || c = '\n' || c = '\x0b' || c = '\x0c' || c = '\r'

def trimRightWhile (p : Char → Bool) (s : List Char) : List Char :=
  (s.reverse.dropWhile p).reverse

def goTrimSpace (s : List Char) : List Char :=
  trimRightWhile goIsSpace (s.dropWhile goIsSpace)

def goToLower (s : List Char) : List Char := s.map Char.toLower

def goToUpper (s : List Char) : List Char := s.map Char.toUpper

def goHasPre (s pre : List Char) : Bool := List.isPrefixOf pre s

/-- `strings.SplitN(s, string(sep), 2)`: split at the first occurrence of
`sep`; `none` models the 1-element result when `sep` does not occur. -/
def splitFirst (s : List Char) (sep : Char) : Option (List Char × List Char) :=
  match s with
  | [] => none
  | c :: rest =>
    if c = sep then some ([], rest)
    else (splitFirst rest sep).map (fun p => (c :: p.1, p.2))

def goTrimPre (s pre : List Char) : List Char :=
  if List.isPrefixOf pre s then s.drop pre.length else s

def trimLeftSlashes (s : List Char) : List Char := s.dropWhile (· = '/')

/-- `ensureLeadingSlash` from `main.go` (part_005 lines 1687-1695). -/
def ensureLeadingSlash (s : List Char) : List Char :=
  match s with
  | [] => ['/']
  | c :: _ => if c = '/' then s else '/' :: s

/-- `sanitizeForID` from `main.go` (part_005 lines 1697-1707): every rune that
is not ASCII alphanumeric becomes an underscore. -/
def sanitizeForID (p : List Char) : List Char :=
  p.map (fun r =>
    if ('a' ≤ r && r ≤ 'z') || ('A' ≤ r && r ≤ 'Z') || ('0' ≤ r && r ≤ '9') then r
    else '_')

/-- `toolNameFromRawPath` from `main.go` (part_005 lines 1553-1561): strip one
leading slash, then take the first `/`-separated segment. -/
def toolNameFromRawPath (p : List Char) : List Char :=
  let p1 := goTrimPre p ['/']
  match p1 with
  | [] => []
  | _ =>
    match splitFirst p1 '/' with
    | some (seg, _) => seg
    | none => p1

example : toolNameFromRawPath "/read_text_file".toList = "read_text_file".toList := by decide
example : toolNameFromRawPath "read_text_file".toList = "read_text_file".toList := by decide
example : toolNameFromRawPath "/a/b".toList = "a".toList := by decide
example : ensureLeadingSlash "foo".toList = "/foo".toList := by decide
example : sanitizeForID "/a.b".toList = "_a_b".toList := by decide

/- ## JSON documents

`encoding/json` unmarshals into `map[string]any` / `[]any` / `string` /
`float64` / `bool` / `nil`.  Numbers are modelled as the decimal literal the
document carried (`mant * 10^(-exp)`), which supports exactly the two
operations the repository performs on them: equality and the float64
integrality test `math.Trunc(n) == n`. -/

structure GoNum where
  mant : Int
  exp : Nat
deriving DecidableEq, Repr

/-- `isIntegralNumber` (part_005 lines 1880-1889) restricted to the `float64`
case: `math.Trunc(n) == n` holds iff the decimal `mant / 10^exp` is an
integer. -/
def GoNum.isIntegral (n : GoNum) : Bool := n.mant % ((10 : Int) ^ n.exp) == 0

mutual
inductive Json where
  | null : Json
  | bool (b : Bool) : Json
  | num (q : GoNum) : Json
  | str (s : String) : Json
  | arr (xs : JArr) : Json
  | obj (fs : JObj) : Json
deriving DecidableEq, Repr

inductive JArr where
  | nil : JArr
  | cons (hd : Json) (tl : JArr) : JArr
deriving DecidableEq, Repr

inductive JObj where
  | nil : JObj
  | cons (k : String) (v : Json) (tl : JObj) : JObj
deriving DecidableEq, Repr
end

def jarrOf : List Json → JArr
  | [] => .nil
  | x :: xs => .cons x (jarrOf xs)

def jobjOf : List (String × Json) → JObj
  | [] => .nil
  | (k, v) :: xs => .cons k v (jobjOf xs)

def JObj.find? : JObj → String → Option Json
  | .nil, _ => none
  | .cons k1 v tl, k => if k1 = k then some v else JObj.find? tl k

/-- Go map assignment `m[k] = v`: replace the (unique) binding or append. -/
def JObj.set : JObj → String → Json → JObj
  | .nil, k, v => .cons k v .nil
  | .cons k1 v1 tl, k, v => if k1 = k then .cons k v tl else .cons k1 v1 (JObj.set tl k v)

/-- Go `delete(m, k)`. -/
def JObj.del : JObj → String → JObj
  | .nil, _ => .nil
  | .cons k1 v1 tl, k => if k1 = k then JObj.del tl k else .cons k1 v1 (JObj.del tl k)

def JObj.keys : JObj → List String
  | .nil => []
  | .cons k _ tl => k :: JObj.keys tl

def JObj.toPairs : JObj → List (String × Json)
  | .nil => []
  | .cons k v tl => (k, v) :: JObj.toPairs tl

theorem JObj.find?_set_self : ∀ (m : JObj) (k : String) (v : Json),
    JObj.find? (JObj.set m k v) k = some v
  | .nil, k, v => by simp [JObj.set, JObj.find?]
  | .cons k1 v1 tl, k, v => by
    by_cases h : k1 = k
    · simp [JObj.set, h, JObj.find?]
    · simp [JObj.set, h, JObj.find?, JObj.find?_set_self tl k v]

theorem JObj.find?_set_ne : ∀ (m : JObj) (k k1 : String) (v : Json), k1 ≠ k →
    JObj.find? (JObj.set m k v) k1 = JObj.find? m k1
  | .nil, k, k1, v, h => by
    have hkk : ¬ (k = k1) := fun hh => h hh.symm
    simp [JObj.set, JObj.find?, hkk]
  | .cons k2 v2 tl, k, k1, v, h => by
    have hkk : ¬ (k = k1) := fun hh => h hh.symm
    by_cases hk : k2 = k
    · simp [JObj.set, hk, JObj.find?, hkk]
    · simp only [JObj.set, hk, if_false, JObj.find?]
      by_cases h2 : k2 = k1 <;> simp [h2, JObj.find?_set_ne tl k k1 v h]

theorem JObj.keys_set_subset : ∀ (m : JObj) (k : String) (v : Json),
    JObj.keys (JObj.set m k v) ⊆ k :: JObj.keys m
  | .nil, k, v => by simp [JObj.set, JObj.keys]
  | .cons k1 v1 tl, k, v => by
    by_cases h : k1 = k
    · intro a ha
      simp only [JObj.set, h, if_true, JObj.keys, List.mem_cons] at ha ⊢
      rcases ha with ha | ha
      · exact Or.inl ha
      · exact Or.inr (Or.inr ha)
    · intro a ha
      simp only [JObj.set, h, if_false, JObj.keys, List.mem_cons] at ha ⊢
      rcases ha with ha | ha
      · exact Or.inr (Or.inl ha)
      · rcases List.mem_cons.mp (JObj.keys_set_subset tl k v ha) with hb | hb
        · exact Or.inl hb
        · exact Or.inr (Or.inr hb)

/- ## Overlay model and `allowed`

From part_005 lines 78-102.  The runtime overlay is a set of nested Go maps,
any level of which may be `nil`; `Option` marks the nilable maps and the
overlay pointer itself. -/

structure Overlay where
  disabled : Option (Smap (Smap Bool))
  allow : Option (Smap (Smap (Smap Bool)))
  deny : Option (Smap (Smap (Smap Bool)))
  descriptions : Option (Smap (Smap (Smap String)))
deriving Repr

/-- `o.Disabled != nil && o.Disabled[inst] != nil && o.Disabled[inst][server]`
(part_005 line 90). -/
def disabledLookup (o : Overlay) (inst server : String) : Bool :=
  match o.disabled with
  | none => false
  | some m1 =>
    match findS m1 inst with
    | none => false
    | some m2 => (findS m2 server).getD false

/-- `o.Allow != nil && o.Allow[inst] != nil && o.Allow[inst][server] != nil`
yields the explicit allow-set for `(inst, server)` (part_005 line 94). -/
def allowSetLookup (o : Overlay) (inst server : String) : Option (Smap Bool) :=
  match o.allow with
  | none => none
  | some m1 =>
    match findS m1 inst with
    | none => none
    | some m2 => findS m2 server

/-- The deny test of part_005 line 98: all three maps non-nil and the tool
mapped to `true`. -/
def denyLookup (o : Overlay) (inst server tool : String) : Bool :=
  match o.deny with
  | none => false
  | some m1 =>
    match findS m1 inst with
    | none => false
    | some m2 =>
      match findS m2 server with
      | none => false
      | some m3 => (findS m3 tool).getD false

/-- Description-override lookup of part_005 lines 1508-1512:
`ov != nil && ov.Descriptions != nil && ov.Descriptions[inst] != nil &&
ov.Descriptions[inst][name] != nil`, then the tool's entry. -/
def descOverrideLookup (o : Option Overlay) (inst server tool : String) : Option String :=
  match o with
  | none => none
  | some ov =>
    match ov.descriptions with
    | none => none
    | some m1 =>
      match findS m1 inst with
      | none => none
      | some m2 =>
        match findS m2 server with
        | none => none
        | some m3 => findS m3 tool

/-- `(*Overlay).allowed` from part_005 lines 85-102, including the nil-receiver
case. -/
def allowedGo (o : Option Overlay) (inst server tool : String) : Bool :=
  match o with
  | none => true
  | some ov =>
    if disabledLookup ov inst server then false
    else
      match allowSetLookup ov inst server with
      | some am => (findS am tool).getD false
      | none => if denyLookup ov inst server tool then false else true

/- ## Composite overlay and `translateOverlay`

The TUI returns an overlay keyed by composite ids `"<inst>/<srv>"`
(`internal/tui/tui.go` lines 39-45); part_005 lines 991-1058 translate it to
the nested per-instance form. -/

structure OverlayComposite where
  disabled : Smap Bool
  allow : Smap (Smap Bool)
  deny : Smap (Smap Bool)
  descriptions : Smap (Smap String)
  lastLaunch : String
deriving Repr

/-- The local `split` closure of `translateOverlay` (part_005 lines 998-1004):
`strings.SplitN(key, "/", 2)`, ok iff two parts. -/
def splitCompositeKey (key : String) : Option (String × String) :=
  (splitFirst key.toList '/').map (fun p => (String.mk p.1, String.mk p.2))

/-- One insertion step shared by the four loops of `translateOverlay`:
decompose the composite key, initialize the instance map if nil, store. -/
def nestPut {α : Type} (acc : Smap (Smap α)) (key : String) (v : α) : Smap (Smap α) :=
  match splitCompositeKey key with
  | none => acc
  | some (i, s) => setS acc i (setS ((findS acc i).getD []) s v)

/-- Empty-map initialization for every known instance
(part_005 lines 1006-1012). -/
def initInstMaps {α : Type} (instances : List String) : Smap (Smap α) :=
  instances.foldl (fun m i => setS m i []) []

/-- `translateOverlay` from part_005 lines 991-1058.  `instances` carries the
names of this run's instances in order. -/
def translateOverlay (instances : List String) (inp : OverlayComposite) : Overlay :=
  { disabled := some (inp.disabled.foldl
      (fun acc p => if p.2 then nestPut acc p.1 true else acc)
      (initInstMaps instances))
    allow := some (inp.allow.foldl
      (fun acc p => nestPut acc p.1 p.2)
      (initInstMaps instances))
    deny := some (inp.deny.foldl
      (fun acc p => nestPut acc p.1 p.2)
      (initInstMaps instances))
    descriptions := some (inp.descriptions.foldl
      (fun acc p => nestPut acc p.1 p.2)
      (initInstMaps instances)) }

/- ## Preflight tool inventory (cmdUp)

part_005 lines 396-418: for each instance and each configured server the
Inspector runs; its outcome is a tool list and an optional error.  Only
servers with a non-empty tool list are put into the composite map that is
handed to the TUI. -/

structure GoTool where
  name : String
  title : String
  description : String
deriving DecidableEq, Repr

structure InspectOutcome where
  tools : List GoTool
  err : Option String
deriving Repr

/-- The preflight accumulation of part_005 lines 402-417: `runs` lists each
instance name with its `(serverName, outcome)` pairs; the result is
`pf.ByComposite`.  The error branch only logs (verbosity-gated) and the map is
written only under `len(sum.Tools) > 0`. -/
def preflightByComposite (runs : List (String × List (String × InspectOutcome))) :
    Smap (List GoTool) :=
  runs.foldl
    (fun acc r =>
      r.2.foldl
        (fun acc2 p =>
          if 0 < p.2.tools.length then setS acc2 (r.1 ++ "/" ++ p.1) p.2.tools else acc2)
        acc)
    []

/- ## API-key generation -/

/-- The alphabet of `randomKey` (part_005 line 1156). -/
def alphabetGo : List Char :=
  "abcdefghijklmnopqrstuvwxyzABCDEFGHIJKLMNOPQRSTUVWXYZ0123456789".toList

/-- `randomKey` from part_005 lines 1155-1168.  The CSPRNG read and the clock
are explicit inputs: `randBytes = some bs` models a successful `rand.Read`
filling the buffer with `bs`; `none` models the error branch, where byte `i`
is `alphabet[int(now+i) % 62]` with Go's truncated `%` on `int`. -/
def randomKeyGo (n : Nat) (randBytes : Option (List Nat)) (nowNano : Int) : List Char :=
  match randBytes with
  | some bytes => bytes.map (fun b => alphabetGo.getD (b % alphabetGo.length) ' ')
  | none =>
    (List.range n).map
      (fun (i : Nat) =>
        alphabetGo.getD ((Int.tmod (nowNano + Int.ofNat i) (alphabetGo.length : Int)).toNat) ' ')

/- ## The Inspector's stdio reader (part_015)

part_015 lines 110-155 (`readJSON`), lines 321-337 (`readLine`), together with
the header-skipping loop of the Content-Length branch.  The child's stdout is
a `List Char`; deadlines and I/O errors collapse to `none`.  Fuel makes the
recursion structural; every recursive call consumes at least one character,
so any fuel above the input length is exact. -/

def crlfP (c : Char) : Bool := c = '\r' || c = '\n'

/-- `readLine`: `bufio.ReadString('\n')` then `strings.TrimRight(s, "\r\n")`;
an EOF before any newline surfaces as the error branch (`none`). -/
def goReadLine (s : List Char) : Option (List Char × List Char) :=
  (splitFirst s '\n').map (fun p => (trimRightWhile crlfP p.1, p.2))

/-- Digit-prefix accumulator of `fmt.Sscanf(s, "%d", &n)`. -/
def takeDigitsVal : List Char → Int → Int
  | [], acc => acc
  | c :: rest, acc =>
    if c.isDigit then takeDigitsVal rest (acc * 10 + ((c.toNat : Int) - ('0'.toNat : Int)))
    else acc

/-- `fmt.Sscanf(nstr, "%d", &n)` with the scan error ignored (`n` stays 0 when
no digits are found), as at part_015 line 133. -/
def sscanfIntGo (s : List Char) : Int :=
  match s.dropWhile goIsSpace with
  | '-' :: rest => -(takeDigitsVal rest 0)
  | '+' :: rest => takeDigitsVal rest 0
  | s1 => takeDigitsVal s1 0

def clChars : List Char := "content-length:".toList

def lbraceC : Char := Char.ofNat 123

/-- The header loop of part_015 lines 127-131: read lines until a blank one;
a read error aborts. -/
def skipHeadersGo : Nat → List Char → Option (List Char)
  | 0, _ => none
  | fuel+1, input =>
    match goReadLine input with
    | none => none
    | some (line, rest) =>
      if goTrimSpace line = [] then some rest else skipHeadersGo fuel rest

/-- `readJSON` from part_015 lines 110-155: skip blank lines; a line whose
lower-cased form starts with `content-length:` is treated as an LSP frame
header (consume header lines to the blank line, `Sscanf` the length, then
`io.ReadFull` that many bytes and return them trimmed); a line starting with
a brace or bracket is returned; anything else is noise and scanning
continues. -/
def readJSONGo : Nat → List Char → Option (List Char × List Char)
  | 0, _ => none
  | fuel+1, input =>
    match goReadLine input with
    | none => none
    | some (line, rest) =>
      let lt := goTrimSpace line
      if lt = [] then readJSONGo fuel rest
      else if goHasPre (goToLower lt) clChars then
        match splitFirst lt ':' with
        | none => readJSONGo fuel rest
        | some (_, p2) =>
          let nstr := goTrimSpace p2
          match skipHeadersGo fuel rest with
          | none => none
          | some rest2 =>
            let n := sscanfIntGo nstr
            if n ≤ 0 then readJSONGo fuel rest2
            else if (rest2.length : Int) < n then none
            else some (goTrimSpace (rest2.take n.toNat), rest2.drop n.toNat)
      else if goHasPre lt [lbraceC] || goHasPre lt ['['] then some (lt, rest)
      else readJSONGo fuel rest

/-- Modelled from the spec (§4.3 Framing): a strictly newline-delimited
reader that never detects `Content-Length` frames — every non-JSON line
(anything not opening a brace or bracket) is skipped and scanning
continues.  Used solely as the comparison point for claim C2. -/
def readJSONSpecNL : Nat → List Char → Option (List Char × List Char)
  | 0, _ => none
  | fuel+1, input =>
    match goReadLine input with
    | none => none
    | some (line, rest) =>
      let lt := goTrimSpace line
      if lt = [] then readJSONSpecNL fuel rest
      else if goHasPre lt [lbraceC] || goHasPre lt ['['] then some (lt, rest)
      else readJSONSpecNL fuel rest

/- ## OpenAPI merger (part_005 lines 1385-1539)

The per-tool specs fetched from the gateway become an explicit `fetch`
function; `sort.Strings` becomes an insertion sort over Go's byte-wise
(equivalently code-point-wise) lexicographic order. -/

def charListLe : List Char → List Char → Bool
  | [], _ => true
  | _ :: _, [] => false
  | x :: xs, y :: ys =>
    if x.toNat < y.toNat then true
    else if y.toNat < x.toNat then false
    else charListLe xs ys

def leStrGo (a b : String) : Bool := charListLe a.toList b.toList

def insertSorted (x : String) : List String → List String
  | [] => [x]
  | y :: ys => if leStrGo x y then x :: y :: ys else y :: insertSorted x ys

/-- `sort.Strings`, modelled as insertion sort over Go's string order. -/
def sortStringsGo (l : List String) : List String := l.foldr insertSorted []

/-- The four managed component sections (part_005 line 1457). -/
def sectionsList : List String := ["schemas", "parameters", "responses", "requestBodies"]

/-- `spec["components"].(map[string]any)` with a failed assertion yielding the
nil map. -/
def componentsOf (spec : Json) : JObj :=
  match spec with
  | .obj fs =>
    match fs.find? "components" with
    | some (.obj c) => c
    | _ => .nil
  | _ => .nil

/-- `spec["paths"].(map[string]any)` with a failed assertion yielding the nil
map (part_005 line 1488). -/
def pathsOf (spec : Json) : JObj :=
  match spec with
  | .obj fs =>
    match fs.find? "paths" with
    | some (.obj p) => p
    | _ => .nil
  | _ => .nil

/-- One section's local-key set (part_005 lines 1460-1465): the keys of that
section in the ORIGINAL document, as a Go set. -/
def localEntryOf (spec : Json) (sec : String) : Smap Bool :=
  match (componentsOf spec).find? sec with
  | some (.obj m) => (JObj.keys m).map (fun k => (k, true))
  | _ => []

/-- The `localKeys` table of part_005 lines 1458-1466: for each of the four
sections, the key set of that section in the ORIGINAL document. -/
def buildLocalKeys (spec : Json) : Smap (Smap Bool) :=
  sectionsList.foldl (fun lk sec => setS lk sec (localEntryOf spec sec)) []

/-- `rewriteRefString` from part_005 lines 1585-1600 (the `base` constant and
the `rest` local are inlined). -/
def rewriteRefString (ref tool : String) (localKeys : Smap (Smap Bool)) : String :=
  if goHasPre ref.toList "#/components/".toList = false then ref
  else
    match splitFirst (goTrimPre ref.toList "#/components/".toList) '/' with
    | none => ref
    | some (sec, nm) =>
      match findS localKeys (String.mk sec) with
      | some secs =>
        if (findS secs (String.mk nm)).getD false then
          "#/components/" ++ String.mk sec ++ "/" ++ tool ++ "__" ++ String.mk nm
        else ref
      | none => ref

mutual
/-- `rewriteRefs` from part_005 lines 1564-1583: rewrite string-valued `$ref`
entries via `rewriteRefString`, recurse into every child except values stored
under a `$ref` key. -/
def rewriteRefs (tool : String) (lk : Smap (Smap Bool)) : Json → Json
  | .obj fs => .obj (rewriteRefsObj tool lk fs)
  | .arr xs => .arr (rewriteRefsArr tool lk xs)
  | j => j

def rewriteRefsArr (tool : String) (lk : Smap (Smap Bool)) : JArr → JArr
  | .nil => .nil
  | .cons h t => .cons (rewriteRefs tool lk h) (rewriteRefsArr tool lk t)

def rewriteRefsObj (tool : String) (lk : Smap (Smap Bool)) : JObj → JObj
  | .nil => .nil
  | .cons k v tl =>
    if k = "$ref" then
      .cons k
        (match v with
         | .str s => .str (rewriteRefString s tool lk)
         | _ => v)
        (rewriteRefsObj tool lk tl)
    else .cons k (rewriteRefs tool lk v) (rewriteRefsObj tool lk tl)
end

/-- Component move of part_005 lines 1473-1485: after the rewrite, each entry of
each section is stored in the merged section under `<name>__<key>`. -/
def moveComponents (name : String) (specR : Json) (comps : Smap JObj) : Smap JObj :=
  sectionsList.foldl
    (fun cs sec =>
      match (componentsOf specR).find? sec with
      | some (.obj src) =>
        match findS cs sec with
        | some dst =>
          setS cs sec
            (src.toPairs.foldl (fun d p => JObj.set d (name ++ "__" ++ p.1) p.2) dst)
        | none => cs
      | _ => cs)
    comps

def descLimitGo : Nat := 300

/-- The warning text of part_005 lines 1515-1517. -/
def mkDescWarn (method newPath toolName : String) (n : Nat) : String :=
  String.mk (goToUpper method.toList) ++ " " ++ newPath ++ " (tool=" ++ toolName ++
    "): description length " ++ toString n ++ " > " ++ toString descLimitGo

/-- The `operationId` stamping of part_005 lines 1501-1506. -/
def stampOpId (name method rawPath : String) (om : JObj) : JObj :=
  match om.find? "operationId" with
  | some (.str oid) =>
    if oid ≠ "" then om.set "operationId" (.str (name ++ "__" ++ oid))
    else
      om.set "operationId"
        (.str (name ++ "__" ++ String.mk (goToLower method.toList) ++ "_" ++
          String.mk (sanitizeForID rawPath.toList)))
  | _ =>
    om.set "operationId"
      (.str (name ++ "__" ++ String.mk (goToLower method.toList) ++ "_" ++
        String.mk (sanitizeForID rawPath.toList)))

/-- One iteration of the method loop (part_005 lines 1496-1521): stamp the
operationId, apply the description override, record a length warning, delete
per-operation security.  Non-object operations are left untouched. -/
def processOp (instName name rawPath toolName newPath : String) (ov : Option Overlay)
    (method : String) (op : Json) : Json × List String :=
  match op with
  | .obj om =>
    let om1 := stampOpId name method rawPath om
    let om2 :=
      match descOverrideLookup ov instName name toolName with
      | some d => if d ≠ "" then om1.set "description" (.str d) else om1
      | none => om1
    let ws :=
      match om2.find? "description" with
      | some (.str desc) =>
        if descLimitGo < desc.length then [mkDescWarn method newPath toolName desc.length]
        else []
      | _ => []
    (.obj (om2.del "security"), ws)
  | _ => (op, [])

def processPathItemOps (instName name rawPath toolName newPath : String)
    (ov : Option Overlay) : JObj → (JObj × List String)
  | .nil => (.nil, [])
  | .cons method op tl =>
    let r1 := processOp instName name rawPath toolName newPath ov method op
    let r2 := processPathItemOps instName name rawPath toolName newPath ov tl
    (.cons method r1.1 r2.1, r1.2 ++ r2.2)

def httpMethodsList : List String :=
  ["get", "post", "put", "delete", "patch", "options", "head", "trace", "connect"]

/-- `countHTTPMethods` from part_005 lines 1542-1551. -/
def countHTTPMethods : JObj → Nat
  | .nil => 0
  | .cons k _ tl =>
    (if httpMethodsList.contains (String.mk (goToLower k.toList)) then 1 else 0) +
      countHTTPMethods tl

structure MergeAcc where
  paths : JObj
  comps : Smap JObj
  warns : Smap (List String)
  counts : Smap Nat
deriving Repr

def addWarns (ws : Smap (List String)) (name : String) (new : List String) :
    Smap (List String) :=
  if new = [] then ws else setS ws name ((findS ws name).getD [] ++ new)

/-- One iteration of the path loop (part_005 lines 1489-1528). -/
def mergePathEntry (instName name : String) (ov : Option Overlay) (acc : MergeAcc)
    (rawPath : String) (v : Json) : MergeAcc :=
  let toolName := String.mk (toolNameFromRawPath rawPath.toList)
  if allowedGo ov instName name toolName = false then acc
  else
    let newPath := String.mk ('/' :: trimLeftSlashes name.toList ++ ensureLeadingSlash rawPath.toList)
    match v with
    | .obj m =>
      let pr := processPathItemOps instName name rawPath toolName newPath ov m
      { paths := acc.paths.set newPath (.obj pr.1)
        comps := acc.comps
        warns := addWarns acc.warns name pr.2
        counts := setS acc.counts name ((findS acc.counts name).getD 0 + countHTTPMethods pr.1) }
    | _ => { acc with paths := acc.paths.set newPath v }

/-- One server's contribution (part_005 lines 1455-1529): collect local keys
from the original document, rewrite refs on a deep copy, move components,
then merge each path item. -/
def mergeServer (instName : String) (ov : Option Overlay) (acc : MergeAcc)
    (name : String) (spec : Json) : MergeAcc :=
  let lk := buildLocalKeys spec
  let specR := rewriteRefs name lk spec
  let acc1 : MergeAcc := { acc with comps := moveComponents name specR acc.comps }
  (pathsOf specR).toPairs.foldl (fun a p => mergePathEntry instName name ov a p.1 p.2) acc1

/-- The deterministic, overlay-filtered server order of part_005 lines
1421-1428. -/
def serverNamesFiltered (cfgNames : List String) (ov : Option Overlay)
    (instName : String) : List String :=
  sortStringsGo (cfgNames.filter (fun n =>
    !(match ov with
      | some o => disabledLookup o instName n
      | none => false)))

def emptyMergeAcc : MergeAcc :=
  { paths := .nil
    comps := [("schemas", .nil), ("parameters", .nil), ("responses", .nil), ("requestBodies", .nil)]
    warns := []
    counts := [] }

/-- The server loop of `mergeOpenAPI` (part_005 lines 1420-1530): every fetch
succeeds and parses (failures abort the whole merge and produce no document,
so they are outside the merged-document claims). -/
def mergeOpenAPIGo (instName : String) (cfgNames : List String) (fetch : String → Json)
    (ov : Option Overlay) : MergeAcc :=
  (serverNamesFiltered cfgNames ov instName).foldl
    (fun acc n => mergeServer instName ov acc n (fetch n)) emptyMergeAcc

/- ## Integer coercion cleanup (part_005 lines 1830-1889) -/

/-- `isIntegralNumber` (part_005 lines 1880-1889): float64 values are integral
iff truncation is the identity; non-numbers are not integral. -/
def isIntegralJson : Json → Bool
  | .num q => q.isIntegral
  | _ => false

def jarrLen : JArr → Nat
  | .nil => 0
  | .cons _ t => jarrLen t + 1

def jarrAllIntegral : JArr → Bool
  | .nil => true
  | .cons h t => isIntegralJson h && jarrAllIntegral t

/-- `shouldBeInteger` from part_005 lines 1853-1878. -/
def shouldBeInteger (schema : JObj) : Bool :=
  (match schema.find? "default" with
   | some dv => isIntegralJson dv
   | none => false) ||
  (match schema.find? "enum" with
   | some (.arr ev) => (0 < jarrLen ev : Bool) && jarrAllIntegral ev
   | _ => false) ||
  (match schema.find? "multipleOf" with
   | some mv => isIntegralJson mv
   | none => false)

/-- The `type == "number"` test of part_005 line 1834. -/
def isNumberTyped (fs : JObj) : Bool :=
  match fs.find? "type" with
  | some (.str t) => t = "number"
  | _ => false

mutual
/-- `coerceIntegerTypes` from part_005 lines 1830-1851.  Go sets
`node["type"] = "integer"` (when the original node qualifies) and then
recurses into every child except `$ref` values; since the replaced value is a
plain string, setting the key after coercing the children is the same
document. -/
def coerceJson : Json → Json
  | .obj fs =>
    if isNumberTyped fs && shouldBeInteger fs then
      .obj (JObj.set (coerceFields fs) "type" (.str "integer"))
    else .obj (coerceFields fs)
  | .arr xs => .arr (coerceArr xs)
  | j => j

def coerceArr : JArr → JArr
  | .nil => .nil
  | .cons h t => .cons (coerceJson h) (coerceArr t)

def coerceFields : JObj → JObj
  | .nil => .nil
  | .cons k v t => .cons k (if k = "$ref" then v else coerceJson v) (coerceFields t)
end

/- ## Extraction helpers for stating the merged-document invariants -/

/-- All string-valued `operationId` entries of the object-valued operations of
one path item. -/
def opIdsOfItem : JObj → List String
  | .nil => []
  | .cons _ v tl =>
    (match v with
     | .obj om =>
       match om.find? "operationId" with
       | some (.str s) => [s]
       | _ => []
     | _ => []) ++ opIdsOfItem tl

/-- All operationIds of a merged `paths` object. -/
def opIdsOfPaths : JObj → List String
  | .nil => []
  | .cons _ v tl =>
    (match v with
     | .obj m => opIdsOfItem m
     | _ => []) ++ opIdsOfPaths tl

/-- Combining Diacritical Marks block (U+0300–U+036F). -/
def isCombiningMark (c : Char) : Bool := 0x300 ≤ c.toNat && c.toNat ≤ 0x36F

/-- Modelled from the spec: the spec counts description length in "graphemes"
(§3 Instance, §8 boundary behaviors) without defining them, so Unicode
extended grapheme clusters are intended.  For strings over ASCII plus the
combining-marks block that do not begin with a mark — the only shape the C9
counterexample needs — each cluster is one non-combining character followed
by its marks, so the cluster count is the number of non-combining
characters. -/
def graphemeCount (s : String) : Nat :=
  (s.toList.filter (fun c => !(isCombiningMark c))).length

/- ## Generic fold lemma -/

theorem foldl_eq_init {β γ : Type} (f : β → γ → β) (init : β) (l : List γ)
    (h : ∀ acc x, x ∈ l → f acc x = acc) : l.foldl f init = init := by
  induction l generalizing init with
  | nil => rfl
  | cons hd tl ih =>
    rw [List.foldl_cons, h init hd (List.mem_cons_self hd tl)]
    exact ih init (fun acc x hx => h acc x (List.mem_cons_of_mem hd hx))

/- ## Claim C1 -/

/-- C1: the spec requires that after preflight every configured
`(instance, server)` pair is present in the data handed to the UI, with
status `ERR` and error text when inspection failed.  The code (part_005
lines 402-417) only stores servers whose inspection returned at least one
tool, computes no status or error map at all, and so hides errored servers
from the UI.  Evaluating the embedded preflight at a failing server shows the
composite map handed to the UI is empty. -/
theorem C1_preflight_hides_errored_server :
    preflightByComposite
        [("alpha", [("bad", { tools := [], err := some "init read: context deadline exceeded" })])] = [] ∧
      findS
        (preflightByComposite
          [("alpha", [("bad", { tools := [], err := some "init read: context deadline exceeded" })])])
        "alpha/bad" = none := by
  constructor <;> rfl

/- ## Claim C3 -/

/-- C3: `allowed` returns false for a disabled server; with an explicit
allow-set it returns true iff the tool is mapped `true` in that set; with no
allow-set it rejects exactly the denied tools; and an empty allow-set makes
the Merger emit no paths for that server (part_005 lines 85-102 and
1488-1493). -/
theorem C3_allowed_semantics :
    (∀ (o : Overlay) (inst srv t : String),
      disabledLookup o inst srv = true → allowedGo (some o) inst srv t = false) ∧
    (∀ (o : Overlay) (inst srv t : String) (am : Smap Bool),
      disabledLookup o inst srv = false → allowSetLookup o inst srv = some am →
      (allowedGo (some o) inst srv t = true ↔ findS am t = some true)) ∧
    (∀ (o : Overlay) (inst srv t : String),
      disabledLookup o inst srv = false → allowSetLookup o inst srv = none →
      (allowedGo (some o) inst srv t = false ↔ denyLookup o inst srv t = true)) ∧
    (∀ (o : Overlay) (inst srv : String),
      allowSetLookup o inst srv = some [] →
      (∀ t, allowedGo (some o) inst srv t = false) ∧
      (∀ (acc : MergeAcc) (spec : Json),
        (mergeServer inst (some o) acc srv spec).paths = acc.paths)) := by
  refine ⟨?_, ?_, ?_, ?_⟩
  · intro o inst srv t hd
    simp [allowedGo, hd]
  · intro o inst srv t am hd ha
    simp only [allowedGo, hd, if_false, ha]
    cases hfind : findS am t with
    | none => simp [hfind]
    | some b => cases b <;> simp [hfind]
  · intro o inst srv t hd ha
    simp only [allowedGo, hd, if_false, ha]
    by_cases hdn : denyLookup o inst srv t = true
    · simp [hdn]
    · simp [hdn]
  · intro o inst srv ha
    have hfalse : ∀ t, allowedGo (some o) inst srv t = false := by
      intro t
      by_cases hd : disabledLookup o inst srv = true
      · simp [allowedGo, hd]
      · simp only [Bool.not_eq_true] at hd
        simp [allowedGo, hd, ha, findS]
    refine ⟨hfalse, ?_⟩
    intro acc spec
    show ((pathsOf (rewriteRefs srv (buildLocalKeys spec) spec)).toPairs.foldl
      (fun a p => mergePathEntry inst srv (some o) a p.1 p.2) _).paths = acc.paths
    have hstep : ∀ (a : MergeAcc) p,
        p ∈ (pathsOf (rewriteRefs srv (buildLocalKeys spec) spec)).toPairs →
        mergePathEntry inst srv (some o) a p.1 p.2 = a := by
      intro a p _
      simp [mergePathEntry, hfalse]
    rw [foldl_eq_init _ _ _ hstep]

def ovDisX : Overlay :=
  { disabled := some [("i", [("s", true)])], allow := none, deny := none, descriptions := none }

def ovAllowX : Overlay :=
  { disabled := none, allow := some [("i", [("s", [("t", true)])])], deny := none,
    descriptions := none }

def ovDenyX : Overlay :=
  { disabled := none, allow := none, deny := some [("i", [("s", [("t", true)])])],
    descriptions := none }

def ovEmptyAllowX : Overlay :=
  { disabled := none, allow := some [("i", [("s", ([] : Smap Bool))])], deny := none,
    descriptions := none }

theorem C3_allowed_semantics_witness :
    allowedGo (some ovDisX) "i" "s" "t" = false ∧
    (allowedGo (some ovAllowX) "i" "s" "t" = true ↔ findS [("t", true)] "t" = some true) ∧
    (allowedGo (some ovDenyX) "i" "s" "t" = false ↔ denyLookup ovDenyX "i" "s" "t" = true) ∧
    ((∀ t, allowedGo (some ovEmptyAllowX) "i" "s" t = false) ∧
      (∀ (acc : MergeAcc) (spec : Json),
        (mergeServer "i" (some ovEmptyAllowX) acc "s" spec).paths = acc.paths)) :=
  ⟨C3_allowed_semantics.1 ovDisX "i" "s" "t" (by decide),
   C3_allowed_semantics.2.1 ovAllowX "i" "s" "t" [("t", true)] (by decide) (by decide),
   C3_allowed_semantics.2.2.1 ovDenyX "i" "s" "t" (by decide) (by decide),
   C3_allowed_semantics.2.2.2 ovEmptyAllowX "i" "s" (by decide)⟩

/- ## Claim C10 -/

theorem getD_mem_of_lt (l : List Char) (i : Nat) (d : Char) (h : i < l.length) :
    l.getD i d ∈ l := by
  rw [List.getD_eq_getElem l d h]
  exact List.getElem_mem h

/-- C10: `randomKey` (part_005 lines 1155-1168) returns exactly `n`
characters, each in the 62-character alphanumeric alphabet, on both the
CSPRNG path (which fills `n` bytes) and the fallback path that derives bytes
from the (nonnegative) Unix-nano clock. -/
theorem C10_randomKey_alphabet (n : Nat) (bytes : List Nat) (t : Int)
    (hb : bytes.length = n) (ht : 0 ≤ t) :
    ((randomKeyGo n (some bytes) t).length = n ∧
      ∀ c ∈ randomKeyGo n (some bytes) t, c ∈ alphabetGo) ∧
    ((randomKeyGo n none t).length = n ∧
      ∀ c ∈ randomKeyGo n none t, c ∈ alphabetGo) := by
  constructor
  · constructor
    · simp [randomKeyGo, hb]
    · intro c hc
      simp only [randomKeyGo, List.mem_map] at hc
      obtain ⟨b, _, hbc⟩ := hc
      rw [← hbc]
      exact getD_mem_of_lt _ _ _ (Nat.mod_lt b (by decide))
  · constructor
    · simp only [randomKeyGo]
      rw [List.length_map, List.length_range]
    · intro c hc
      simp only [randomKeyGo, List.mem_map, List.mem_range] at hc
      obtain ⟨i, _, hic⟩ := hc
      rw [← hic]
      have h0 : (0 : Int) ≤ t + Int.ofNat i := by
        have : (0 : Int) ≤ Int.ofNat i := Int.ofNat_nonneg i
        omega
      have hpos : (0 : Int) < (alphabetGo.length : Int) := by decide
      have hnn : 0 ≤ Int.tmod (t + Int.ofNat i) (alphabetGo.length : Int) :=
        Int.tmod_nonneg _ h0
      have hlt : Int.tmod (t + Int.ofNat i) (alphabetGo.length : Int) < (alphabetGo.length : Int) :=
        Int.tmod_lt_of_pos _ hpos
      refine getD_mem_of_lt _ _ _ ?_
      exact (Int.toNat_lt hnn).mpr hlt

theorem C10_randomKey_alphabet_witness :
    ((randomKeyGo 3 (some [0, 200, 61]) 5).length = 3 ∧
      ∀ c ∈ randomKeyGo 3 (some [0, 200, 61]) 5, c ∈ alphabetGo) ∧
    ((randomKeyGo 3 none 5).length = 3 ∧
      ∀ c ∈ randomKeyGo 3 none 5, c ∈ alphabetGo) :=
  C10_randomKey_alphabet 3 [0, 200, 61] 5 (by decide) (by decide)

/- ## Claim C7 -/

/-- The object produced by coercing an object node. -/
def coerceObjFields (fs : JObj) : JObj :=
  match coerceJson (.obj fs) with
  | .obj g => g
  | _ => .nil

theorem coerceFields_find? : ∀ (m : JObj) (k : String),
    JObj.find? (coerceFields m) k =
      (JObj.find? m k).map (fun v => if k = "$ref" then v else coerceJson v)
  | .nil, k => by simp [coerceFields, JObj.find?]
  | .cons k1 v tl, k => by
    by_cases h : k1 = k
    · subst h
      simp [coerceFields, JObj.find?]
    · simp [coerceFields, JObj.find?, h, coerceFields_find? tl k]

theorem shouldBeInteger_iff (fs : JObj) :
    shouldBeInteger fs = true ↔
      ((∃ dv, fs.find? "default" = some dv ∧ isIntegralJson dv = true) ∨
       (∃ ev, fs.find? "enum" = some (.arr ev) ∧ 0 < jarrLen ev ∧ jarrAllIntegral ev = true) ∨
       (∃ mv, fs.find? "multipleOf" = some mv ∧ isIntegralJson mv = true)) := by
  unfold shouldBeInteger
  constructor
  · intro h
    rcases Bool.or_eq_true_iff.mp h with h1 | h1
    · rcases Bool.or_eq_true_iff.mp h1 with h2 | h2
      · cases hd : fs.find? "default" with
        | none => rw [hd] at h2; exact absurd h2 (by simp)
        | some dv => rw [hd] at h2; exact Or.inl ⟨dv, rfl, h2⟩
      · cases he : fs.find? "enum" with
        | none => rw [he] at h2; exact absurd h2 (by simp)
        | some ev =>
          cases ev with
          | arr l =>
            rw [he] at h2
            have h3 := Bool.and_eq_true_iff.mp h2
            refine Or.inr (Or.inl ⟨l, rfl, ?_, h3.2⟩)
            have := h3.1
            simpa using this
          | null => rw [he] at h2; exact absurd h2 (by simp)
          | bool b => rw [he] at h2; exact absurd h2 (by simp)
          | num q => rw [he] at h2; exact absurd h2 (by simp)
          | str s => rw [he] at h2; exact absurd h2 (by simp)
          | obj o => rw [he] at h2; exact absurd h2 (by simp)
    · cases hm : fs.find? "multipleOf" with
      | none => rw [hm] at h1; exact absurd h1 (by simp)
      | some mv => rw [hm] at h1; exact Or.inr (Or.inr ⟨mv, rfl, h1⟩)
  · intro h
    rcases h with ⟨dv, hd, hint⟩ | ⟨ev, he, hlen, hall⟩ | ⟨mv, hm, hint⟩
    · rw [hd]
      simp [hint]
    · rw [he]
      simp [hall, hlen]
    · rw [hm]
      simp [hint]

theorem isNumberTyped_find (fs : JObj) (h : isNumberTyped fs = true) :
    fs.find? "type" = some (.str "number") := by
  unfold isNumberTyped at h
  cases ht : fs.find? "type" with
  | none => rw [ht] at h; exact absurd h (by simp)
  | some tv =>
    rw [ht] at h
    cases tv with
    | str s =>
      have hs : s = "number" := by simpa using h
      rw [hs]
    | null => exact absurd h (by simp)
    | bool b => exact absurd h (by simp)
    | num q => exact absurd h (by simp)
    | arr l => exact absurd h (by simp)
    | obj o => exact absurd h (by simp)

/-- C7: in the cleanup walk (part_005 lines 1830-1889), an object node typed
`"number"` ends up typed `"integer"` exactly when its `default` is an
integral number, or its `enum` is non-empty with every entry integral, or its
`multipleOf` is integral; otherwise its type stays `"number"`.  The claim's
two example schemas — also in a nested document position — behave as
stated, with `default` and `multipleOf` preserved. -/
theorem C7_coerce_integer_types :
    (∀ fs : JObj, isNumberTyped fs = true →
      ((JObj.find? (coerceObjFields fs) "type" = some (.str "integer")) ↔
        ((∃ dv, fs.find? "default" = some dv ∧ isIntegralJson dv = true) ∨
         (∃ ev, fs.find? "enum" = some (.arr ev) ∧ 0 < jarrLen ev ∧ jarrAllIntegral ev = true) ∨
         (∃ mv, fs.find? "multipleOf" = some mv ∧ isIntegralJson mv = true))) ∧
      (shouldBeInteger fs = false →
        JObj.find? (coerceObjFields fs) "type" = some (.str "number"))) ∧
    coerceJson (.obj (jobjOf
        [("type", .str "number"), ("default", .num ⟨5, 0⟩), ("multipleOf", .num ⟨1, 0⟩)])) =
      .obj (jobjOf
        [("type", .str "integer"), ("default", .num ⟨5, 0⟩), ("multipleOf", .num ⟨1, 0⟩)]) ∧
    coerceJson (.obj (jobjOf [("type", .str "number"), ("default", .num ⟨55, 1⟩)])) =
      .obj (jobjOf [("type", .str "number"), ("default", .num ⟨55, 1⟩)]) ∧
    coerceJson (.obj (jobjOf [("components", .obj (jobjOf [("schemas", .obj (jobjOf
        [("S", .obj (jobjOf
          [("type", .str "number"), ("default", .num ⟨5, 0⟩), ("multipleOf", .num ⟨1, 0⟩)]))]))]))])) =
      .obj (jobjOf [("components", .obj (jobjOf [("schemas", .obj (jobjOf
        [("S", .obj (jobjOf
          [("type", .str "integer"), ("default", .num ⟨5, 0⟩), ("multipleOf", .num ⟨1, 0⟩)]))]))]))]) := by
  refine ⟨?_, by decide, by decide, by decide⟩
  intro fs hnum
  constructor
  · rw [← shouldBeInteger_iff]
    by_cases hsb : shouldBeInteger fs = true
    · simp only [hsb, iff_true]
      have hobj : coerceObjFields fs = JObj.set (coerceFields fs) "type" (.str "integer") := by
        simp [coerceObjFields, coerceJson, hnum, hsb]
      rw [hobj]
      exact JObj.find?_set_self _ _ _
    · have hsb' : shouldBeInteger fs = false := by simpa using hsb
      have hobj : coerceObjFields fs = coerceFields fs := by
        simp [coerceObjFields, coerceJson, hnum, hsb']
      rw [hobj, coerceFields_find?, isNumberTyped_find fs hnum]
      simp [coerceJson, hsb']
  · intro hsb
    have hobj : coerceObjFields fs = coerceFields fs := by
      simp [coerceObjFields, coerceJson, hnum, hsb]
    rw [hobj, coerceFields_find?, isNumberTyped_find fs hnum]
    simp [coerceJson]

theorem C7_coerce_integer_types_witness :
    ((JObj.find? (coerceObjFields (jobjOf
        [("type", .str "number"), ("default", .num ⟨5, 0⟩), ("multipleOf", .num ⟨1, 0⟩)])) "type" =
        some (.str "integer")) ↔
      ((∃ dv, (jobjOf
          [("type", .str "number"), ("default", .num ⟨5, 0⟩), ("multipleOf", .num ⟨1, 0⟩)]).find?
            "default" = some dv ∧ isIntegralJson dv = true) ∨
       (∃ ev, (jobjOf
          [("type", .str "number"), ("default", .num ⟨5, 0⟩), ("multipleOf", .num ⟨1, 0⟩)]).find?
            "enum" = some (.arr ev) ∧ 0 < jarrLen ev ∧ jarrAllIntegral ev = true) ∨
       (∃ mv, (jobjOf
          [("type", .str "number"), ("default", .num ⟨5, 0⟩), ("multipleOf", .num ⟨1, 0⟩)]).find?
            "multipleOf" = some mv ∧ isIntegralJson mv = true))) :=
  ((C7_coerce_integer_types.1 (jobjOf
    [("type", .str "number"), ("default", .num ⟨5, 0⟩), ("multipleOf", .num ⟨1, 0⟩)])
    (by decide)).1)

/- ## Claim C8: composite → nested overlay translation -/

theorem splitFirst_eq_some : ∀ (s : List Char) (c : Char) (a b : List Char),
    splitFirst s c = some (a, b) → s = a ++ c :: b ∧ c ∉ a
  | [], _, _, _, h => by simp [splitFirst] at h
  | x :: rest, c, a, b, h => by
    by_cases hx : x = c
    · simp [splitFirst, hx] at h
      obtain ⟨ha, hb⟩ := h
      subst ha; subst hb; subst hx
      simp
    · simp only [splitFirst, hx, if_false] at h
      cases hr : splitFirst rest c with
      | none => rw [hr] at h; simp at h
      | some p =>
        rw [hr] at h
        simp at h
        obtain ⟨ha, hb⟩ := h
        obtain ⟨hs, hmem⟩ := splitFirst_eq_some rest c p.1 p.2 (by rw [hr])
        subst hb
        constructor
        · rw [← ha]; simp [hs]
        · rw [← ha]
          intro hc
          rcases List.mem_cons.mp hc with hc | hc
          · exact hx hc.symm
          · exact hmem hc

theorem splitCompositeKey_eq (k i s : String) (h : splitCompositeKey k = some (i, s)) :
    k = i ++ "/" ++ s := by
  unfold splitCompositeKey at h
  cases hsp : splitFirst k.toList '/' with
  | none => rw [hsp] at h; simp at h
  | some p =>
    rw [hsp] at h
    simp at h
    obtain ⟨hi, hs⟩ := h
    obtain ⟨hk, _⟩ := splitFirst_eq_some k.toList '/' p.1 p.2 hsp
    have hmk : String.mk k.toList = String.mk (p.1 ++ '/' :: p.2) := by rw [← hk]
    have hj : String.mk (p.1 ++ '/' :: p.2) = String.mk p.1 ++ String.mk ['/'] ++ String.mk p.2 := by
      apply String.ext
      simp [String.data_append]
    calc k = String.mk k.toList := rfl
    _ = String.mk (p.1 ++ '/' :: p.2) := hmk
    _ = String.mk p.1 ++ String.mk ['/'] ++ String.mk p.2 := hj
    _ = i ++ "/" ++ s := by rw [hi, hs]

/-- Invariant used below: the nested lookup `(i, s)` already resolves to `v`. -/
def nestInv {α : Type} (acc : Smap (Smap α)) (i s : String) (v : α) : Prop :=
  ((findS acc i).bind (fun m2 => findS m2 s)) = some v

theorem nestPut_preserve {α : Type} (acc : Smap (Smap α)) (k : String) (w : α)
    (i s : String) (v : α) (hne : splitCompositeKey k ≠ some (i, s))
    (hinv : nestInv acc i s v) : nestInv (nestPut acc k w) i s v := by
  unfold nestPut
  cases hsp : splitCompositeKey k with
  | none => exact hinv
  | some p =>
    obtain ⟨i1, s1⟩ := p
    by_cases hi : i1 = i
    · subst hi
      have hs : s1 ≠ s := by
        intro hss
        exact hne (by rw [hsp, hss])
      unfold nestInv at hinv ⊢
      cases hm : findS acc i1 with
      | none => rw [hm] at hinv; simp at hinv
      | some m2 =>
        rw [hm] at hinv
        simp only [Option.some_bind] at hinv
        rw [findS_setS_self]
        simp only [Option.some_bind, hm, Option.getD_some]
        rw [findS_setS_ne _ _ _ _ (fun hh => hs hh.symm)]
        exact hinv
    · unfold nestInv at hinv ⊢
      rw [findS_setS_ne _ _ _ _ (fun hh => hi hh.symm)]
      exact hinv

theorem nestPut_fold_preserves {α : Type} (entries : Smap α) (acc : Smap (Smap α))
    (i s : String) (v : α)
    (hinv : nestInv acc i s v)
    (hne : ∀ p ∈ entries, splitCompositeKey p.1 ≠ some (i, s)) :
    nestInv (entries.foldl (fun a p => nestPut a p.1 p.2) acc) i s v := by
  induction entries generalizing acc with
  | nil => exact hinv
  | cons hd tl ih =>
    rw [List.foldl_cons]
    exact ih (nestPut acc hd.1 hd.2)
      (nestPut_preserve acc hd.1 hd.2 i s v (hne hd (List.mem_cons_self hd tl)) hinv)
      (fun p hp => hne p (List.mem_cons_of_mem hd hp))

theorem nestPut_self {α : Type} (acc : Smap (Smap α)) (k : String) (w : α)
    (i s : String) (h : splitCompositeKey k = some (i, s)) :
    nestInv (nestPut acc k w) i s w := by
  have hput : nestPut acc k w = setS acc i (setS ((findS acc i).getD []) s w) := by
    unfold nestPut
    rw [h]
  rw [hput]
  unfold nestInv
  rw [findS_setS_self]
  simp only [Option.some_bind]
  rw [findS_setS_self]

theorem nestPut_fold_retains {α : Type} (entries : Smap α) (init : Smap (Smap α))
    (key i s : String) (v : α)
    (hsplit : splitCompositeKey key = some (i, s))
    (hnd : (keysS entries).Nodup)
    (hfind : findS entries key = some v) :
    nestInv (entries.foldl (fun a p => nestPut a p.1 p.2) init) i s v := by
  induction entries generalizing init with
  | nil => simp [findS] at hfind
  | cons hd tl ih =>
    rw [List.foldl_cons]
    by_cases hk : hd.1 = key
    · have hv : hd.2 = v := by
        unfold findS at hfind
        rw [if_pos hk] at hfind
        exact Option.some.inj hfind
      subst hv
      apply nestPut_fold_preserves
      · rw [hk]
        exact nestPut_self init key hd.2 i s hsplit
      · intro p hp hps
        have hpk : p.1 = key := by
          rw [splitCompositeKey_eq p.1 i s hps, splitCompositeKey_eq key i s hsplit]
        have : key ∈ keysS tl := by
          rw [← hpk]
          exact List.mem_map_of_mem Prod.fst hp
        rw [← hk] at this
        unfold keysS at hnd
        simp only [List.map_cons, List.nodup_cons] at hnd
        exact hnd.1 this
    · have hfind2 : findS tl key = some v := by
        unfold findS at hfind
        rw [if_neg hk] at hfind
        exact hfind
      unfold keysS at hnd
      simp only [List.map_cons, List.nodup_cons] at hnd
      exact ih (nestPut init hd.1 hd.2) hnd.2 hfind2

theorem findS_isSome_nestPut {α : Type} (acc : Smap (Smap α)) (k : String) (w : α)
    (x : String) (h : (findS acc x).isSome) : (findS (nestPut acc k w) x).isSome := by
  unfold nestPut
  cases hsp : splitCompositeKey k with
  | none => exact h
  | some p => exact findS_isSome_setS _ _ _ _ h

theorem findS_isSome_nestPut_fold {α : Type} (entries : Smap α) (acc : Smap (Smap α))
    (x : String) (h : (findS acc x).isSome) :
    (findS (entries.foldl (fun a p => nestPut a p.1 p.2) acc) x).isSome := by
  induction entries generalizing acc with
  | nil => exact h
  | cons hd tl ih =>
    rw [List.foldl_cons]
    exact ih (nestPut acc hd.1 hd.2) (findS_isSome_nestPut acc hd.1 hd.2 x h)

theorem findS_isSome_setS_fold {α : Type} (l : List String) (m : Smap (Smap α)) (x : String)
    (h : x ∈ l ∨ (findS m x).isSome) :
    (findS (l.foldl (fun acc i => setS acc i []) m) x).isSome := by
  induction l generalizing m with
  | nil =>
    rcases h with h | h
    · simp at h
    · exact h
  | cons hd tl ih =>
    rw [List.foldl_cons]
    apply ih
    rcases h with h | h
    · rcases List.mem_cons.mp h with hh | hh
      · right
        subst hh
        rw [findS_setS_self]
        rfl
      · left
        exact hh
    · right
      exact findS_isSome_setS _ _ _ _ h

theorem findS_isSome_initInstMaps {α : Type} (instances : List String) (i : String)
    (h : i ∈ instances) : (findS (initInstMaps (α := α) instances) i).isSome :=
  findS_isSome_setS_fold instances [] i (Or.inl h)

theorem foldl_guarded_filter {α β : Type} (l : List (α × Bool)) (f : β → (α × Bool) → β) (b : β) :
    l.foldl (fun acc x => if x.2 then f acc x else acc) b = (l.filter (fun p => p.2)).foldl f b := by
  induction l generalizing b with
  | nil => rfl
  | cons hd tl ih =>
    by_cases h : hd.2
    · simp [List.foldl_cons, List.filter_cons, h, ih]
    · simp [List.foldl_cons, List.filter_cons, h, ih]

theorem findS_filter_true (l : Smap Bool) (key : String) (h : findS l key = some true) :
    findS (l.filter (fun p => p.2)) key = some true := by
  induction l with
  | nil => simp [findS] at h
  | cons hd tl ih =>
    by_cases hk : hd.1 = key
    · unfold findS at h
      rw [if_pos hk] at h
      have hv : hd.2 = true := Option.some.inj h
      simp only [List.filter_cons, hv, if_true]
      unfold findS
      rw [if_pos hk, hv]
    · unfold findS at h
      rw [if_neg hk] at h
      by_cases hv : hd.2
      · simp only [List.filter_cons, hv, if_true]
        unfold findS
        rw [if_neg hk]
        exact ih h
      · simp only [List.filter_cons, Bool.not_eq_true] at hv ⊢
        rw [hv]
        simp only [Bool.false_eq_true, if_false]
        exact ih h

theorem keysS_filter_nodup {α : Type} (l : Smap α) (q : String × α → Bool)
    (h : (keysS l).Nodup) : (keysS (l.filter q)).Nodup :=
  List.Nodup.sublist (List.Sublist.map Prod.fst (List.filter_sublist l)) h

def ovcGhost : OverlayComposite :=
  { disabled := [("ghost/srv", true)], allow := [], deny := [], descriptions := [],
    lastLaunch := "" }

/-- C8 counterexample: the claim says composite entries whose instance is not
part of this run are discarded, but `translateOverlay` (part_005 lines
1013-1020) initializes a fresh map for the unknown instance and stores the
entry, so the `"ghost"` key appears in the nested overlay even though the
only known instance is `"alpha"`. -/
theorem C8_unknown_instance_retained_counterexample :
    ("ghost" ∉ ["alpha"]) ∧
    (translateOverlay ["alpha"] ovcGhost).disabled.bind (fun m => findS m "ghost") =
      some [("srv", true)] := by
  constructor
  · decide
  · decide

/-- C8 (amended): translation decomposes each composite key on the first `/`;
keys lacking a `/` are discarded; the nested form initializes empty maps for
every known instance; and entries are retained under their decomposed
instance key — including instances unknown to this run (they are inert
because downstream lookups only consult known instance names). -/
theorem C8_translate_overlay_amended (instances : List String) (inp : OverlayComposite) :
    (∀ i ∈ instances,
      ((translateOverlay instances inp).disabled.bind (fun m => findS m i)).isSome ∧
      ((translateOverlay instances inp).allow.bind (fun m => findS m i)).isSome ∧
      ((translateOverlay instances inp).deny.bind (fun m => findS m i)).isSome ∧
      ((translateOverlay instances inp).descriptions.bind (fun m => findS m i)).isSome) ∧
    (∀ key i s, splitCompositeKey key = some (i, s) →
      ((keysS inp.disabled).Nodup → findS inp.disabled key = some true →
        (translateOverlay instances inp).disabled.bind
          (fun m => (findS m i).bind (fun m2 => findS m2 s)) = some true) ∧
      (∀ mm, (keysS inp.allow).Nodup → findS inp.allow key = some mm →
        (translateOverlay instances inp).allow.bind
          (fun m => (findS m i).bind (fun m2 => findS m2 s)) = some mm) ∧
      (∀ mm, (keysS inp.deny).Nodup → findS inp.deny key = some mm →
        (translateOverlay instances inp).deny.bind
          (fun m => (findS m i).bind (fun m2 => findS m2 s)) = some mm) ∧
      (∀ mm, (keysS inp.descriptions).Nodup → findS inp.descriptions key = some mm →
        (translateOverlay instances inp).descriptions.bind
          (fun m => (findS m i).bind (fun m2 => findS m2 s)) = some mm)) ∧
    ((∀ k ∈ keysS inp.disabled, splitCompositeKey k = none) →
     (∀ k ∈ keysS inp.allow, splitCompositeKey k = none) →
     (∀ k ∈ keysS inp.deny, splitCompositeKey k = none) →
     (∀ k ∈ keysS inp.descriptions, splitCompositeKey k = none) →
      translateOverlay instances inp =
        translateOverlay instances
          { disabled := [], allow := [], deny := [], descriptions := [],
            lastLaunch := inp.lastLaunch }) := by
  have hdisfold : inp.disabled.foldl
      (fun acc p => if p.2 then nestPut acc p.1 true else acc)
      (initInstMaps instances) =
      (inp.disabled.filter (fun p => p.2)).foldl (fun a p => nestPut a p.1 p.2)
        (initInstMaps instances) := by
    rw [foldl_guarded_filter]
    apply List.foldl_ext
    intro a b hb
    have := (List.mem_filter.mp hb).2
    simp only [this]
  refine ⟨?_, ?_, ?_⟩
  · intro i hi
    refine ⟨?_, ?_, ?_, ?_⟩ <;>
      · simp only [translateOverlay, Option.some_bind]
        first
        | (rw [hdisfold]
           exact findS_isSome_nestPut_fold _ _ _ (findS_isSome_initInstMaps instances i hi))
        | exact findS_isSome_nestPut_fold _ _ _ (findS_isSome_initInstMaps instances i hi)
  · intro key i s hsplit
    refine ⟨?_, ?_, ?_, ?_⟩
    · intro hnd hfind
      simp only [translateOverlay, Option.some_bind]
      rw [hdisfold]
      exact nestPut_fold_retains _ _ key i s true hsplit
        (keysS_filter_nodup _ _ hnd) (findS_filter_true _ _ hfind)
    · intro mm hnd hfind
      simp only [translateOverlay, Option.some_bind]
      exact nestPut_fold_retains _ _ key i s mm hsplit hnd hfind
    · intro mm hnd hfind
      simp only [translateOverlay, Option.some_bind]
      exact nestPut_fold_retains _ _ key i s mm hsplit hnd hfind
    · intro mm hnd hfind
      simp only [translateOverlay, Option.some_bind]
      exact nestPut_fold_retains _ _ key i s mm hsplit hnd hfind
  · intro h1 h2 h3 h4
    have e1 : inp.disabled.foldl
        (fun acc p => if p.2 then nestPut acc p.1 true else acc)
        (initInstMaps instances) = initInstMaps instances := by
      apply foldl_eq_init
      intro acc x hx
      have hk := h1 x.1 (List.mem_map_of_mem Prod.fst hx)
      by_cases hb : x.2
      · simp only [hb, if_true]
        unfold nestPut
        rw [hk]
      · simp [hb]
    have e2 : inp.allow.foldl (fun acc p => nestPut acc p.1 p.2) (initInstMaps instances) =
        initInstMaps instances := by
      apply foldl_eq_init
      intro acc x hx
      unfold nestPut
      rw [h2 x.1 (List.mem_map_of_mem Prod.fst hx)]
    have e3 : inp.deny.foldl (fun acc p => nestPut acc p.1 p.2) (initInstMaps instances) =
        initInstMaps instances := by
      apply foldl_eq_init
      intro acc x hx
      unfold nestPut
      rw [h3 x.1 (List.mem_map_of_mem Prod.fst hx)]
    have e4 : inp.descriptions.foldl (fun acc p => nestPut acc p.1 p.2)
        (initInstMaps instances) = initInstMaps instances := by
      apply foldl_eq_init
      intro acc x hx
      unfold nestPut
      rw [h4 x.1 (List.mem_map_of_mem Prod.fst hx)]
    simp only [translateOverlay, e1, e2, e3, e4, List.foldl_nil]

def ovcWitnessX : OverlayComposite :=
  { disabled := [("i/s", true)], allow := [("i/s", [("t", true)])], deny := [],
    descriptions := [], lastLaunch := "" }

theorem C8_translate_overlay_amended_witness :
    ((translateOverlay ["i"] ovcWitnessX).disabled.bind (fun m => findS m "i")).isSome ∧
    (translateOverlay ["i"] ovcWitnessX).disabled.bind
      (fun m => (findS m "i").bind (fun m2 => findS m2 "s")) = some true ∧
    (translateOverlay ["i"] ovcWitnessX).allow.bind
      (fun m => (findS m "i").bind (fun m2 => findS m2 "s")) = some [("t", true)] :=
  ⟨((C8_translate_overlay_amended ["i"] ovcWitnessX).1 "i" (by decide)).1,
   ((C8_translate_overlay_amended ["i"] ovcWitnessX).2.1 "i/s" "i" "s" (by decide)).1
     (by decide) (by decide),
   (((C8_translate_overlay_amended ["i"] ovcWitnessX).2.1 "i/s" "i" "s" (by decide)).2.1
     [("t", true)] (by decide) (by decide))⟩

/- ## Claim C2: the Inspector's stdio reader -/

theorem dropWhile_eq_self_of {p : Char → Bool} : ∀ (l : List Char),
    (∀ c ∈ l, p c = false) → l.dropWhile p = l
  | [], _ => rfl
  | c :: rest, h => by
    unfold List.dropWhile
    rw [h c (List.mem_cons_self c rest)]

theorem trimRightWhile_eq_self_of {p : Char → Bool} (l : List Char)
    (h : ∀ c ∈ l, p c = false) : trimRightWhile p l = l := by
  unfold trimRightWhile
  rw [dropWhile_eq_self_of l.reverse (fun c hc => h c (List.mem_reverse.mp hc))]
  exact List.reverse_reverse l

theorem goTrimSpace_eq_self_of (l : List Char)
    (h : ∀ c ∈ l, goIsSpace c = false) : goTrimSpace l = l := by
  unfold goTrimSpace
  rw [dropWhile_eq_self_of l h, trimRightWhile_eq_self_of l h]

theorem splitFirst_append (sep : Char) : ∀ (a b : List Char), sep ∉ a →
    splitFirst (a ++ sep :: b) sep = some (a, b)
  | [], b, _ => by simp [splitFirst]
  | c :: rest, b, h => by
    have hc : ¬ (c = sep) := fun hh => h (hh ▸ List.mem_cons_self c rest)
    have hrest : sep ∉ rest := fun hh => h (List.mem_cons_of_mem c hh)
    show splitFirst (c :: (rest ++ sep :: b)) sep = some (c :: rest, b)
    unfold splitFirst
    rw [if_neg hc, splitFirst_append sep rest b hrest]
    rfl

theorem isPrefixOf_append_self : ∀ (pre x : List Char),
    List.isPrefixOf pre (pre ++ x) = true
  | [], _ => by simp [List.isPrefixOf]
  | c :: rest, x => by
    simp [List.isPrefixOf, isPrefixOf_append_self rest x]

theorem crlfP_false_of (c : Char) (hr : c ≠ '\r') (hn : c ≠ '\n') : crlfP c = false := by
  unfold crlfP
  rw [decide_eq_false hr, decide_eq_false hn]
  rfl

theorem goReadLine_append (noise rest : List Char)
    (hnl : '\n' ∉ noise) (hnr : '\r' ∉ noise) :
    goReadLine (noise ++ '\n' :: rest) = some (noise, rest) := by
  unfold goReadLine
  rw [splitFirst_append '\n' noise rest hnl]
  show some (trimRightWhile crlfP noise, rest) = some (noise, rest)
  rw [trimRightWhile_eq_self_of noise
    (fun c hc => crlfP_false_of c (fun h => hnr (h ▸ hc)) (fun h => hnl (h ▸ hc)))]

/-- C2 counterexample: on a child stdout that carries an LSP
`Content-Length` frame, `readJSON` (part_015 lines 110-155) detects the
header, consumes the framed bytes and returns them, whereas the reader the
claim describes (strictly newline-delimited JSON, frames never detected)
skips the header as noise and fails at end of input. -/
theorem C2_frame_detected_counterexample :
    readJSONGo 8 ("Content-Length: 2\r\n\r\n".toList ++ [Char.ofNat 123, Char.ofNat 125]) =
      some ([Char.ofNat 123, Char.ofNat 125], []) ∧
    readJSONSpecNL 8 ("Content-Length: 2\r\n\r\n".toList ++ [Char.ofNat 123, Char.ofNat 125]) =
      none := by
  constructor
  · rfl
  · rfl

/-- C2 (amended): the Inspector's reader skips noise lines (non-blank lines
that do not open JSON and are not frame headers) and keeps scanning — but a
line whose lower-cased trimmed form starts with `content-length:` IS treated
as an LSP frame header: the remaining header lines through the blank line
are consumed, and the declared number of bytes is read and returned (trimmed)
as the message. -/
theorem C2_reader_amended :
    (∀ (fuel : Nat) (noise rest : List Char),
      '\n' ∉ noise → '\r' ∉ noise →
      goTrimSpace noise ≠ [] →
      goHasPre (goToLower (goTrimSpace noise)) clChars = false →
      goHasPre (goTrimSpace noise) [lbraceC] = false →
      goHasPre (goTrimSpace noise) ['['] = false →
      readJSONGo (fuel + 1) (noise ++ '\n' :: rest) = readJSONGo fuel rest) ∧
    (∀ (fuel : Nat) (nstr body rest : List Char),
      (∀ c ∈ nstr, goIsSpace c = false) →
      sscanfIntGo nstr = (body.length : Int) →
      0 < body.length →
      readJSONGo (fuel + 2)
          (("Content-Length:".toList ++ nstr) ++ '\n' :: '\n' :: (body ++ rest)) =
        some (goTrimSpace body, rest)) := by
  constructor
  · intro fuel noise rest hnl hnr hne hcl hbr hbk
    rw [readJSONGo, goReadLine_append noise rest hnl hnr]
    simp only [hcl, hbr, hbk]
    rw [if_neg hne]
    simp
  · intro fuel nstr body rest hns hval hpos
    have hprens : ∀ c ∈ ("Content-Length:".toList ++ nstr), goIsSpace c = false := by
      intro c hc
      rcases List.mem_append.mp hc with hc | hc
      · fin_cases hc <;> rfl
      · exact hns c hc
    have hnl : '\n' ∉ ("Content-Length:".toList ++ nstr) := by
      intro hc
      have := hprens '\n' hc
      simp [goIsSpace] at this
    have hnr : '\r' ∉ ("Content-Length:".toList ++ nstr) := by
      intro hc
      have := hprens '\r' hc
      simp [goIsSpace] at this
    rw [readJSONGo, goReadLine_append _ _ hnl hnr]
    simp only []
    rw [goTrimSpace_eq_self_of _ hprens]
    have hlow : goHasPre (goToLower ("Content-Length:".toList ++ nstr)) clChars = true := by
      unfold goToLower
      rw [List.map_append]
      have hpre : List.map Char.toLower "Content-Length:".toList = clChars := by decide
      rw [hpre]
      exact isPrefixOf_append_self clChars _
    have hsplit : splitFirst ("Content-Length:".toList ++ nstr) ':' =
        some ("Content-Length".toList, nstr) := by
      have hsplitlist : "Content-Length:".toList = "Content-Length".toList ++ [':'] := by
        decide
      rw [hsplitlist, List.append_assoc]
      exact splitFirst_append ':' _ nstr (by decide)
    rw [if_neg (by simp)]
    rw [hlow]
    simp only [if_true]
    rw [hsplit]
    simp only []
    rw [goTrimSpace_eq_self_of nstr hns]
    have hskip : skipHeadersGo (fuel + 1) ('\n' :: (body ++ rest)) = some (body ++ rest) := by
      rw [skipHeadersGo]
      have : goReadLine ('\n' :: (body ++ rest)) = some ([], body ++ rest) := by
        unfold goReadLine
        simp [splitFirst, trimRightWhile]
      rw [this]
      simp [goTrimSpace, trimRightWhile]
    rw [hskip]
    simp only []
    rw [hval]
    rw [if_neg (by omega)]
    have hlen : ((body ++ rest).length : Int) = (body.length : Int) + (rest.length : Int) := by
      rw [List.length_append]
      push_cast
      ring
    rw [if_neg (by rw [hlen]; omega)]
    have htn : ((body.length : Int)).toNat = body.length := Int.toNat_natCast body.length
    rw [htn]
    rw [List.take_left, List.drop_left]

theorem C2_reader_amended_witness :
    readJSONGo 3 ("INFO serena dashboard".toList ++ '\n' :: "rest".toList) =
      readJSONGo 2 "rest".toList ∧
    readJSONGo 4 (("Content-Length:".toList ++ "2".toList) ++
        '\n' :: '\n' :: ("ab".toList ++ "xyz".toList)) =
      some (goTrimSpace "ab".toList, "xyz".toList) :=
  ⟨C2_reader_amended.1 2 "INFO serena dashboard".toList "rest".toList (by decide) (by decide)
      (by decide) (by decide) (by decide) (by decide),
   C2_reader_amended.2 2 "2".toList "ab".toList "xyz".toList (by decide) (by decide) (by decide)⟩

/- ## Lemmas about the rewrite pass and object surgery -/

theorem JObj.mem_keys_of_mem_toPairs : ∀ (m : JObj) (p : String × Json),
    p ∈ m.toPairs → p.1 ∈ m.keys
  | .nil, p, h => by simp [JObj.toPairs] at h
  | .cons k v tl, p, h => by
    rcases List.mem_cons.mp h with hh | hh
    · subst hh
      exact List.mem_cons_self _ _
    · exact List.mem_cons_of_mem _ (JObj.mem_keys_of_mem_toPairs tl p hh)

theorem JObj.find?_del_ne : ∀ (m : JObj) (k k1 : String), k1 ≠ k →
    (m.del k).find? k1 = m.find? k1
  | .nil, _, _, _ => rfl
  | .cons k2 v tl, k, k1, h => by
    by_cases hk : k2 = k
    · subst hk
      have hkk : ¬ (k2 = k1) := fun hh => h hh.symm
      have hd : (JObj.cons k2 v tl).del k2 = tl.del k2 := by
        show (if k2 = k2 then tl.del k2 else .cons k2 v (tl.del k2)) = tl.del k2
        rw [if_pos rfl]
      have hf : (JObj.cons k2 v tl).find? k1 = tl.find? k1 := by
        show (if k2 = k1 then some v else tl.find? k1) = tl.find? k1
        rw [if_neg hkk]
      calc ((JObj.cons k2 v tl).del k2).find? k1
          = (tl.del k2).find? k1 := congrArg (fun m => JObj.find? m k1) hd
      _ = tl.find? k1 := JObj.find?_del_ne tl k2 k1 h
      _ = (JObj.cons k2 v tl).find? k1 := hf.symm
    · simp only [JObj.del, hk, if_false, JObj.find?]
      by_cases h2 : k2 = k1
      · simp [h2]
      · simp only [h2, if_false]
        exact JObj.find?_del_ne tl k k1 h

theorem keys_rewriteRefsObj (tool : String) (lk : Smap (Smap Bool)) : ∀ (m : JObj),
    (rewriteRefsObj tool lk m).keys = m.keys
  | .nil => rfl
  | .cons k v tl => by
    by_cases h : k = "$ref" <;>
      simp [rewriteRefsObj, h, JObj.keys, keys_rewriteRefsObj tool lk tl]

theorem find?_rewriteRefsObj (tool : String) (lk : Smap (Smap Bool)) : ∀ (m : JObj) (k : String),
    (rewriteRefsObj tool lk m).find? k =
      (m.find? k).map (fun v =>
        if k = "$ref" then
          (match v with
           | .str s => .str (rewriteRefString s tool lk)
           | _ => v)
        else rewriteRefs tool lk v)
  | .nil, k => rfl
  | .cons k1 v tl, k => by
    by_cases hk1 : k1 = "$ref"
    · subst hk1
      by_cases hk : "$ref" = k
      · simp [rewriteRefsObj, JObj.find?, hk]
      · simp only [rewriteRefsObj, if_true, JObj.find?, hk, if_false]
        exact find?_rewriteRefsObj tool lk tl k
    · by_cases hk : k1 = k
      · subst hk
        simp [rewriteRefsObj, hk1, JObj.find?]
      · simp only [rewriteRefsObj, hk1, if_false, JObj.find?, hk]
        exact find?_rewriteRefsObj tool lk tl k

theorem pathsOf_rewriteRefs (tool : String) (lk : Smap (Smap Bool)) (spec : Json) :
    pathsOf (rewriteRefs tool lk spec) = rewriteRefsObj tool lk (pathsOf spec) := by
  cases spec with
  | obj fs =>
    have hL : pathsOf (rewriteRefs tool lk (.obj fs)) =
        (match (rewriteRefsObj tool lk fs).find? "paths" with
         | some (.obj p) => p
         | _ => .nil) := rfl
    have hR : pathsOf (.obj fs) =
        (match fs.find? "paths" with
         | some (.obj p) => p
         | _ => .nil) := rfl
    rw [hL, hR, find?_rewriteRefsObj]
    cases h : fs.find? "paths" with
    | none => rfl
    | some v =>
      cases v <;> simp [rewriteRefs, rewriteRefsObj]
  | null => rfl
  | bool b => rfl
  | num q => rfl
  | str s => rfl
  | arr xs => rfl

theorem componentsOf_rewriteRefs (tool : String) (lk : Smap (Smap Bool)) (spec : Json) :
    componentsOf (rewriteRefs tool lk spec) = rewriteRefsObj tool lk (componentsOf spec) := by
  cases spec with
  | obj fs =>
    have hL : componentsOf (rewriteRefs tool lk (.obj fs)) =
        (match (rewriteRefsObj tool lk fs).find? "components" with
         | some (.obj c) => c
         | _ => .nil) := rfl
    have hR : componentsOf (.obj fs) =
        (match fs.find? "components" with
         | some (.obj c) => c
         | _ => .nil) := rfl
    rw [hL, hR, find?_rewriteRefsObj]
    cases h : fs.find? "components" with
    | none => rfl
    | some v =>
      cases v <;> simp [rewriteRefs, rewriteRefsObj]
  | null => rfl
  | bool b => rfl
  | num q => rfl
  | str s => rfl
  | arr xs => rfl

/- ## The `$ref` inventory of a document -/

mutual
/-- All string-valued `$ref` entries, in the traversal order of
`rewriteRefs`: the `$ref` value of each object (when a string) and the refs
of every non-`$ref` child. -/
def refsOf : Json → List String
  | .obj fs => refsOfObj fs
  | .arr xs => refsOfArr xs
  | _ => []

def refsOfArr : JArr → List String
  | .nil => []
  | .cons h t => refsOf h ++ refsOfArr t

def refsOfObj : JObj → List String
  | .nil => []
  | .cons k v tl =>
    (if k = "$ref" then
      (match v with
       | .str s => [s]
       | _ => [])
     else refsOf v) ++ refsOfObj tl
end

mutual
theorem refsOf_rewriteRefs (tool : String) (lk : Smap (Smap Bool)) :
    ∀ j : Json, refsOf (rewriteRefs tool lk j) =
      (refsOf j).map (fun r => rewriteRefString r tool lk)
  | .obj fs => by
    simp only [rewriteRefs, refsOf]
    exact refsOf_rewriteRefsObj tool lk fs
  | .arr xs => by
    simp only [rewriteRefs, refsOf]
    exact refsOf_rewriteRefsArr tool lk xs
  | .null => rfl
  | .bool b => rfl
  | .num q => rfl
  | .str s => rfl

theorem refsOf_rewriteRefsArr (tool : String) (lk : Smap (Smap Bool)) :
    ∀ xs : JArr, refsOfArr (rewriteRefsArr tool lk xs) =
      (refsOfArr xs).map (fun r => rewriteRefString r tool lk)
  | .nil => rfl
  | .cons h t => by
    simp only [rewriteRefsArr, refsOfArr, List.map_append]
    rw [refsOf_rewriteRefs tool lk h, refsOf_rewriteRefsArr tool lk t]

theorem refsOf_rewriteRefsObj (tool : String) (lk : Smap (Smap Bool)) :
    ∀ fs : JObj, refsOfObj (rewriteRefsObj tool lk fs) =
      (refsOfObj fs).map (fun r => rewriteRefString r tool lk)
  | .nil => rfl
  | .cons k v tl => by
    by_cases hk : k = "$ref"
    · simp only [rewriteRefsObj, hk, if_true, refsOfObj, List.map_append]
      rw [refsOf_rewriteRefsObj tool lk tl]
      cases v <;> simp
    · simp only [rewriteRefsObj, hk, if_false, refsOfObj, List.map_append]
      rw [refsOf_rewriteRefs tool lk v, refsOf_rewriteRefsObj tool lk tl]
end

/- ## Claim C4: component namespacing -/

theorem JObj.find?_isSome_set (m : JObj) (k k1 : String) (v : Json)
    (h : (m.find? k1).isSome) : ((m.set k v).find? k1).isSome := by
  by_cases hk : k1 = k
  · subst hk
    rw [JObj.find?_set_self]
    rfl
  · rwa [JObj.find?_set_ne _ _ _ _ hk]

theorem find?_isSome_set_fold (name : String) :
    ∀ (pairs : List (String × Json)) (dst : JObj) (key : String),
    (key ∈ pairs.map (fun p => name ++ "__" ++ p.1) ∨ (dst.find? key).isSome) →
    ((pairs.foldl (fun d p => JObj.set d (name ++ "__" ++ p.1) p.2) dst).find? key).isSome := by
  intro pairs
  induction pairs with
  | nil =>
    intro dst key h
    rcases h with h | h
    · simp at h
    · exact h
  | cons hd tl ih =>
    intro dst key h
    rw [List.foldl_cons]
    apply ih
    rcases h with h | h
    · rcases List.mem_cons.mp h with hh | hh
      · right
        subst hh
        rw [JObj.find?_set_self]
        rfl
      · left
        exact hh
    · right
      exact JObj.find?_isSome_set _ _ _ _ h

/-- The components invariant: section `sec` of the accumulated components
contains `key`. -/
def sectionInv (comps : Smap JObj) (sec key : String) : Prop :=
  ((findS comps sec).bind (fun dst => JObj.find? dst key)).isSome

theorem sectionInv_moveComponents (name : String) (specR : Json) (comps : Smap JObj)
    (sec key : String) (h : sectionInv comps sec key) :
    sectionInv (moveComponents name specR comps) sec key := by
  unfold moveComponents
  generalize sectionsList = secs
  induction secs generalizing comps with
  | nil => exact h
  | cons hd tl ih =>
    rw [List.foldl_cons]
    apply ih
    cases hsrc : (componentsOf specR).find? hd with
    | none => simpa [hsrc] using h
    | some v =>
      cases v with
      | obj src =>
        cases hdst : findS comps hd with
        | none => simpa [hsrc, hdst] using h
        | some dst =>
          simp only [hsrc, hdst]
          by_cases hsec : hd = sec
          · subst hsec
            unfold sectionInv at h ⊢
            rw [hdst] at h
            simp only [Option.some_bind] at h
            rw [findS_setS_self]
            simp only [Option.some_bind]
            exact find?_isSome_set_fold name src.toPairs dst key (Or.inr h)
          · unfold sectionInv at h ⊢
            rw [findS_setS_ne _ _ _ _ (fun hh => hsec hh.symm)]
            exact h
      | null => simpa [hsrc] using h
      | bool b => simpa [hsrc] using h
      | num q => simpa [hsrc] using h
      | str s => simpa [hsrc] using h
      | arr xs => simpa [hsrc] using h

theorem mergePathEntry_comps (instName name : String) (ov : Option Overlay) (acc : MergeAcc)
    (rawPath : String) (v : Json) :
    (mergePathEntry instName name ov acc rawPath v).comps = acc.comps := by
  unfold mergePathEntry
  by_cases h : allowedGo ov instName name (String.mk (toolNameFromRawPath rawPath.toList)) = false
  · simp only [h, if_true]
  · simp only [h, if_false]
    cases v <;> rfl

theorem mergePathEntry_fold_comps (instName name : String) (ov : Option Overlay)
    (pairs : List (String × Json)) (acc : MergeAcc) :
    (pairs.foldl (fun a p => mergePathEntry instName name ov a p.1 p.2) acc).comps =
      acc.comps := by
  induction pairs generalizing acc with
  | nil => rfl
  | cons hd tl ih =>
    rw [List.foldl_cons, ih, mergePathEntry_comps]

theorem mergeServer_comps (instName : String) (ov : Option Overlay) (acc : MergeAcc)
    (name : String) (spec : Json) :
    (mergeServer instName ov acc name spec).comps =
      moveComponents name (rewriteRefs name (buildLocalKeys spec) spec) acc.comps := by
  unfold mergeServer
  rw [mergePathEntry_fold_comps]

theorem sectionInv_mergeServer (instName : String) (ov : Option Overlay) (acc : MergeAcc)
    (name : String) (spec : Json) (sec key : String) (h : sectionInv acc.comps sec key) :
    sectionInv (mergeServer instName ov acc name spec).comps sec key := by
  rw [mergeServer_comps]
  exact sectionInv_moveComponents _ _ _ _ _ h

/-- Section presence: every managed section key resolves in the accumulated
components map. -/
def sectionsPresent (comps : Smap JObj) : Prop :=
  ∀ s ∈ sectionsList, (findS comps s).isSome

theorem findS_isSome_moveComponents (name : String) (specR : Json) (comps : Smap JObj)
    (x : String) (h : (findS comps x).isSome) :
    (findS (moveComponents name specR comps) x).isSome := by
  unfold moveComponents
  generalize sectionsList = secs
  induction secs generalizing comps with
  | nil => exact h
  | cons hd tl ih =>
    rw [List.foldl_cons]
    apply ih
    cases hsrc : (componentsOf specR).find? hd with
    | none => simpa [hsrc] using h
    | some v =>
      cases v with
      | obj src =>
        cases hdst : findS comps hd with
        | none => simpa [hsrc, hdst] using h
        | some dst =>
          simp only [hsrc, hdst]
          exact findS_isSome_setS _ _ _ _ h
      | null => simpa [hsrc] using h
      | bool b => simpa [hsrc] using h
      | num q => simpa [hsrc] using h
      | str s => simpa [hsrc] using h
      | arr xs => simpa [hsrc] using h

theorem sectionsPresent_moveComponents (name : String) (specR : Json) (comps : Smap JObj)
    (h : sectionsPresent comps) : sectionsPresent (moveComponents name specR comps) :=
  fun s hs => findS_isSome_moveComponents name specR comps s (h s hs)

/-- One section step of `moveComponents`. -/
def moveStep (name : String) (specR : Json) (cs : Smap JObj) (sec : String) : Smap JObj :=
  match (componentsOf specR).find? sec with
  | some (.obj src) =>
    match findS cs sec with
    | some dst =>
      setS cs sec (src.toPairs.foldl (fun d p => JObj.set d (name ++ "__" ++ p.1) p.2) dst)
    | none => cs
  | _ => cs

theorem moveComponents_eq_steps (name : String) (specR : Json) (comps : Smap JObj) :
    moveComponents name specR comps = sectionsList.foldl (moveStep name specR) comps := rfl

theorem JObj.keys_eq_toPairs_map : ∀ (m : JObj), m.keys = m.toPairs.map Prod.fst
  | .nil => rfl
  | .cons k v tl => by
    simp [JObj.keys, JObj.toPairs, JObj.keys_eq_toPairs_map tl]

theorem sectionInv_moveStep (name : String) (specR : Json) (cs : Smap JObj)
    (hd sec key : String) (h : sectionInv cs sec key) :
    sectionInv (moveStep name specR cs hd) sec key := by
  unfold moveStep
  cases hsrc : (componentsOf specR).find? hd with
  | none => exact h
  | some v =>
    cases v with
    | obj src =>
      cases hdst : findS cs hd with
      | none => exact h
      | some dst =>
        simp only []
        by_cases hsec : hd = sec
        · subst hsec
          unfold sectionInv at h ⊢
          rw [hdst] at h
          simp only [Option.some_bind] at h
          rw [findS_setS_self]
          simp only [Option.some_bind]
          exact find?_isSome_set_fold name src.toPairs dst key (Or.inr h)
        · unfold sectionInv at h ⊢
          rw [findS_setS_ne _ _ _ _ (fun hh => hsec hh.symm)]
          exact h
    | null => exact h
    | bool b => exact h
    | num q => exact h
    | str s => exact h
    | arr xs => exact h

theorem sectionInv_moveStep_fold (name : String) (specR : Json) (secs : List String)
    (cs : Smap JObj) (sec key : String) (h : sectionInv cs sec key) :
    sectionInv (secs.foldl (moveStep name specR) cs) sec key := by
  induction secs generalizing cs with
  | nil => exact h
  | cons hd tl ih =>
    rw [List.foldl_cons]
    exact ih _ (sectionInv_moveStep name specR cs hd sec key h)

theorem findS_isSome_moveStep (name : String) (specR : Json) (cs : Smap JObj)
    (hd x : String) (h : (findS cs x).isSome) :
    (findS (moveStep name specR cs hd) x).isSome := by
  unfold moveStep
  cases hsrc : (componentsOf specR).find? hd with
  | none => exact h
  | some v =>
    cases v with
    | obj src =>
      cases hdst : findS cs hd with
      | none => exact h
      | some dst => exact findS_isSome_setS _ _ _ _ h
    | null => exact h
    | bool b => exact h
    | num q => exact h
    | str s => exact h
    | arr xs => exact h

theorem sectionInv_moveSteps_establish (name : String) (specR : Json) (sec nm : String)
    (src : JObj) (hsrc : (componentsOf specR).find? sec = some (.obj src))
    (hnm : nm ∈ src.keys) :
    ∀ (secs : List String) (cs : Smap JObj), sec ∈ secs → (findS cs sec).isSome →
    sectionInv (secs.foldl (moveStep name specR) cs) sec (name ++ "__" ++ nm) := by
  intro secs
  induction secs with
  | nil => intro cs h; simp at h
  | cons hd tl ih =>
    intro cs hmem hpres
    rw [List.foldl_cons]
    by_cases hsec : hd = sec
    · subst hsec
      obtain ⟨dst, hdst⟩ := Option.isSome_iff_exists.mp hpres
      have hstep : moveStep name specR cs hd =
          setS cs hd (src.toPairs.foldl (fun d p => JObj.set d (name ++ "__" ++ p.1) p.2) dst) := by
        unfold moveStep
        rw [hsrc, hdst]
      have hkey : (name ++ "__" ++ nm) ∈ src.toPairs.map (fun p => name ++ "__" ++ p.1) := by
        rw [JObj.keys_eq_toPairs_map] at hnm
        obtain ⟨p, hp, hp1⟩ := List.mem_map.mp hnm
        exact List.mem_map.mpr ⟨p, hp, by rw [hp1]⟩
      have hinv : sectionInv (moveStep name specR cs hd) hd (name ++ "__" ++ nm) := by
        rw [hstep]
        unfold sectionInv
        rw [findS_setS_self]
        simp only [Option.some_bind]
        exact find?_isSome_set_fold name src.toPairs dst _ (Or.inl hkey)
      exact sectionInv_moveStep_fold name specR tl _ hd _ hinv
    · rcases List.mem_cons.mp hmem with hh | hh
      · exact absurd hh.symm hsec
      · exact ih _ hh (findS_isSome_moveStep name specR cs hd sec hpres)

theorem sectionsList_ne_ref (sec : String) (h : sec ∈ sectionsList) : ¬ (sec = "$ref") := by
  fin_cases h <;> decide

theorem sectionInv_mergeServer_establish (instName : String) (ov : Option Overlay)
    (acc : MergeAcc) (name : String) (spec : Json) (sec nm : String) (src : JObj)
    (hsec : sec ∈ sectionsList)
    (hsrcO : (componentsOf spec).find? sec = some (.obj src))
    (hnm : nm ∈ src.keys)
    (hpres : (findS acc.comps sec).isSome) :
    sectionInv (mergeServer instName ov acc name spec).comps sec (name ++ "__" ++ nm) := by
  rw [mergeServer_comps, moveComponents_eq_steps]
  have hsrcR : (componentsOf (rewriteRefs name (buildLocalKeys spec) spec)).find? sec =
      some (.obj (rewriteRefsObj name (buildLocalKeys spec) src)) := by
    rw [componentsOf_rewriteRefs, find?_rewriteRefsObj, hsrcO]
    simp only [Option.map_some', sectionsList_ne_ref sec hsec, if_false]
    rfl
  have hnmR : nm ∈ (rewriteRefsObj name (buildLocalKeys spec) src).keys := by
    rw [keys_rewriteRefsObj]
    exact hnm
  exact sectionInv_moveSteps_establish name _ sec nm _ hsrcR hnmR sectionsList acc.comps hsec hpres

theorem sectionsPresent_mergeServer (instName : String) (ov : Option Overlay) (acc : MergeAcc)
    (name : String) (spec : Json) (h : sectionsPresent acc.comps) :
    sectionsPresent (mergeServer instName ov acc name spec).comps := by
  rw [mergeServer_comps]
  exact sectionsPresent_moveComponents _ _ _ h

theorem sectionInv_merge_fold_preserve (instName : String) (ov : Option Overlay)
    (fetch : String → Json) (names : List String) (sec key : String) :
    ∀ acc : MergeAcc, sectionInv acc.comps sec key →
    sectionInv ((names.foldl (fun a n => mergeServer instName ov a n (fetch n)) acc)).comps
      sec key := by
  induction names with
  | nil => intro acc h; exact h
  | cons hd tl ih =>
    intro acc h
    rw [List.foldl_cons]
    exact ih _ (sectionInv_mergeServer _ _ _ _ _ _ _ h)

theorem sectionInv_merge_fold (instName : String) (ov : Option Overlay)
    (fetch : String → Json) (names : List String) (s sec nm : String) (src : JObj)
    (hsec : sec ∈ sectionsList)
    (hsrcO : (componentsOf (fetch s)).find? sec = some (.obj src))
    (hnm : nm ∈ src.keys) :
    ∀ acc : MergeAcc, s ∈ names → sectionsPresent acc.comps →
    sectionInv ((names.foldl (fun a n => mergeServer instName ov a n (fetch n)) acc)).comps
      sec (s ++ "__" ++ nm) := by
  induction names with
  | nil => intro acc h; simp at h
  | cons hd tl ih =>
    intro acc hmem hpres
    rw [List.foldl_cons]
    by_cases hh : hd = s
    · subst hh
      have hest := sectionInv_mergeServer_establish instName ov acc hd (fetch hd) sec nm src
        hsec hsrcO hnm (hpres sec hsec)
      exact sectionInv_merge_fold_preserve instName ov fetch tl sec _ _ hest
    · rcases List.mem_cons.mp hmem with h2 | h2
      · exact absurd h2.symm hh
      · exact ih _ h2 (sectionsPresent_mergeServer _ _ _ _ _ hpres)

theorem refListDecomp (sec nm : String) :
    ("#/components/" ++ sec ++ "/" ++ nm).toList =
      "#/components/".toList ++ (sec.toList ++ '/' :: nm.toList) := by
  show ((("#/components/".toList ++ sec.toList) ++ ['/']) ++ nm.toList) = _
  simp [List.append_assoc]

theorem rewriteRefString_eval (sec nm tool : String) (lk : Smap (Smap Bool))
    (hchars : '/' ∉ sec.toList) :
    rewriteRefString ("#/components/" ++ sec ++ "/" ++ nm) tool lk =
      (match findS lk sec with
       | some secs =>
         if (findS secs nm).getD false then
           "#/components/" ++ sec ++ "/" ++ tool ++ "__" ++ nm
         else "#/components/" ++ sec ++ "/" ++ nm
       | none => "#/components/" ++ sec ++ "/" ++ nm) := by
  unfold rewriteRefString
  rw [refListDecomp]
  unfold goHasPre
  rw [isPrefixOf_append_self]
  rw [if_neg (by simp)]
  unfold goTrimPre
  rw [if_pos (isPrefixOf_append_self _ _)]
  have hdrop : ("#/components/".toList ++ (sec.toList ++ '/' :: nm.toList)).drop
      "#/components/".toList.length = sec.toList ++ '/' :: nm.toList := List.drop_left _ _
  rw [hdrop]
  rw [splitFirst_append '/' sec.toList nm.toList hchars]
  have hsec : String.mk sec.toList = sec := rfl
  have hnm : String.mk nm.toList = nm := rfl
  simp only [hsec, hnm]

def sectionKeysOf (spec : Json) (sec : String) : List String :=
  match (componentsOf spec).find? sec with
  | some (.obj m) => m.keys
  | _ => []

theorem findS_keysTrue : ∀ (ks : List String) (nm : String),
    findS (ks.map (fun k => (k, true))) nm = if nm ∈ ks then some true else none
  | [], nm => by simp [findS]
  | k :: rest, nm => by
    by_cases h : k = nm
    · subst h
      simp [findS]
    · have hnk : ¬ (nm = k) := fun hh => h hh.symm
      simp only [List.map_cons, findS, h, if_false, findS_keysTrue rest nm]
      simp [List.mem_cons, hnk]

theorem buildLocalKeys_find (spec : Json) (sec : String) (h : sec ∈ sectionsList) :
    findS (buildLocalKeys spec) sec = some (localEntryOf spec sec) := by
  fin_cases h <;>
    simp [buildLocalKeys, sectionsList, setS, findS, List.foldl]

theorem findS_localEntry (spec : Json) (sec nm : String) :
    findS (localEntryOf spec sec) nm =
      if nm ∈ sectionKeysOf spec sec then some true else none := by
  unfold localEntryOf sectionKeysOf
  cases h : (componentsOf spec).find? sec with
  | none => simp [findS]
  | some v => cases v <;> simp [findS, findS_keysTrue]

theorem buildLocalKeys_find_none (spec : Json) (sec : String) (h : sec ∉ sectionsList) :
    findS (buildLocalKeys spec) sec = none := by
  have h1 : ¬ ("schemas" = sec) := fun hh => h (hh ▸ (by decide : "schemas" ∈ sectionsList))
  have h2 : ¬ ("parameters" = sec) := fun hh => h (hh ▸ (by decide : "parameters" ∈ sectionsList))
  have h3 : ¬ ("responses" = sec) := fun hh => h (hh ▸ (by decide : "responses" ∈ sectionsList))
  have h4 : ¬ ("requestBodies" = sec) :=
    fun hh => h (hh ▸ (by decide : "requestBodies" ∈ sectionsList))
  simp [buildLocalKeys, sectionsList, setS, findS, List.foldl, h1, h2, h3, h4]

theorem sectionsList_no_slash (sec : String) (h : sec ∈ sectionsList) : '/' ∉ sec.toList := by
  fin_cases h <;> decide

/-- C4: every `$ref` of the form `#/components/<sec>/<name>` with `sec` one of
the four managed sections and `name` local to the original document is
rewritten to `#/components/<sec>/<server>__<name>` (part_005 lines
1585-1600); refs outside the base, to unknown sections, or to non-local
names are unchanged; the rewrite pass maps `rewriteRefString` over exactly
the `$ref` inventory of the document (lines 1564-1583); and after the merge
the contributed component is present in the same section under
`<server>__<name>` (lines 1473-1485). -/
theorem C4_component_namespacing :
    (∀ (spec : Json) (tool sec nm : String), sec ∈ sectionsList →
      nm ∈ sectionKeysOf spec sec →
      rewriteRefString ("#/components/" ++ sec ++ "/" ++ nm) tool (buildLocalKeys spec) =
        "#/components/" ++ sec ++ "/" ++ tool ++ "__" ++ nm) ∧
    (∀ (ref tool : String) (lk : Smap (Smap Bool)),
      goHasPre ref.toList "#/components/".toList = false →
      rewriteRefString ref tool lk = ref) ∧
    (∀ (spec : Json) (tool sec nm : String), sec ∈ sectionsList →
      nm ∉ sectionKeysOf spec sec →
      rewriteRefString ("#/components/" ++ sec ++ "/" ++ nm) tool (buildLocalKeys spec) =
        "#/components/" ++ sec ++ "/" ++ nm) ∧
    (∀ (spec : Json) (tool sec nm : String), sec ∉ sectionsList → '/' ∉ sec.toList →
      rewriteRefString ("#/components/" ++ sec ++ "/" ++ nm) tool (buildLocalKeys spec) =
        "#/components/" ++ sec ++ "/" ++ nm) ∧
    (∀ (tool : String) (lk : Smap (Smap Bool)) (j : Json),
      refsOf (rewriteRefs tool lk j) = (refsOf j).map (fun r => rewriteRefString r tool lk)) ∧
    (∀ (instName : String) (cfgNames : List String) (fetch : String → Json)
        (ov : Option Overlay) (s sec nm : String) (src : JObj),
      s ∈ serverNamesFiltered cfgNames ov instName →
      sec ∈ sectionsList →
      (componentsOf (fetch s)).find? sec = some (.obj src) →
      nm ∈ src.keys →
      sectionInv (mergeOpenAPIGo instName cfgNames fetch ov).comps sec (s ++ "__" ++ nm)) := by
  refine ⟨?_, ?_, ?_, ?_, ?_, ?_⟩
  · intro spec tool sec nm hsec hnm
    rw [rewriteRefString_eval sec nm tool _ (sectionsList_no_slash sec hsec)]
    rw [buildLocalKeys_find spec sec hsec]
    simp only [findS_localEntry, hnm, if_true, Option.getD_some]
  · intro ref tool lk h
    unfold rewriteRefString
    rw [if_pos h]
  · intro spec tool sec nm hsec hnm
    rw [rewriteRefString_eval sec nm tool _ (sectionsList_no_slash sec hsec)]
    rw [buildLocalKeys_find spec sec hsec]
    simp [findS_localEntry, hnm]
  · intro spec tool sec nm hsec hslash
    rw [rewriteRefString_eval sec nm tool _ hslash]
    rw [buildLocalKeys_find_none spec sec hsec]
  · intro tool lk j
    exact refsOf_rewriteRefs tool lk j
  · intro instName cfgNames fetch ov s sec nm src hs hsec hsrc hnm
    unfold mergeOpenAPIGo
    exact sectionInv_merge_fold instName ov fetch _ s sec nm src hsec hsrc hnm
      emptyMergeAcc hs (by intro x hx; fin_cases hx <;> rfl)

theorem C4_component_namespacing_witness :
    rewriteRefString ("#/components/" ++ "schemas" ++ "/" ++ "Foo") "fs"
        (buildLocalKeys (.obj (jobjOf [("components", .obj (jobjOf
          [("schemas", .obj (jobjOf [("Foo", .obj .nil)]))]))]))) =
      "#/components/" ++ "schemas" ++ "/" ++ "fs" ++ "__" ++ "Foo" ∧
    sectionInv
      (mergeOpenAPIGo "inst" ["fs"]
        (fun _ => .obj (jobjOf [("components", .obj (jobjOf
          [("schemas", .obj (jobjOf [("Foo", .obj .nil)]))]))]))
        none).comps
      "schemas" ("fs" ++ "__" ++ "Foo") :=
  ⟨C4_component_namespacing.1
    (.obj (jobjOf [("components", .obj (jobjOf
      [("schemas", .obj (jobjOf [("Foo", .obj .nil)]))]))]))
    "fs" "schemas" "Foo" (by decide) (by decide),
   C4_component_namespacing.2.2.2.2.2 "inst" ["fs"]
    (fun _ => .obj (jobjOf [("components", .obj (jobjOf
      [("schemas", .obj (jobjOf [("Foo", .obj .nil)]))]))]))
    none "fs" "schemas" "Foo" (jobjOf [("Foo", .obj .nil)])
    (by decide) (by decide) (by decide) (by decide)⟩

/- ## Claim C5: merged path shape -/

theorem mem_insertSorted (a x : String) (l : List String) :
    a ∈ insertSorted x l ↔ a = x ∨ a ∈ l := by
  induction l with
  | nil => simp [insertSorted]
  | cons y ys ih =>
    by_cases h : leStrGo x y
    · simp [insertSorted, h]
    · simp [insertSorted, h, ih]
      tauto

theorem mem_sortStringsGo (a : String) (l : List String) :
    a ∈ sortStringsGo l ↔ a ∈ l := by
  induction l with
  | nil => simp [sortStringsGo]
  | cons y ys ih =>
    simp only [sortStringsGo, List.foldr_cons] at ih ⊢
    rw [mem_insertSorted]
    simp [ih]

theorem mergePathEntry_keys_prop (instName name : String) (ov : Option Overlay)
    (acc : MergeAcc) (rawPath : String) (v : Json) :
    ∀ P ∈ (mergePathEntry instName name ov acc rawPath v).paths.keys,
      P ∈ acc.paths.keys ∨
      (allowedGo ov instName name (String.mk (toolNameFromRawPath rawPath.toList)) = true ∧
        P = String.mk ('/' :: trimLeftSlashes name.toList ++
              ensureLeadingSlash rawPath.toList)) := by
  intro P hP
  cases hA : allowedGo ov instName name (String.mk (toolNameFromRawPath rawPath.toList)) with
  | false =>
    simp only [mergePathEntry, hA] at hP
    simp only [if_true] at hP
    exact Or.inl hP
  | true =>
    simp only [mergePathEntry, hA, Bool.true_eq_false, if_false] at hP
    cases v with
    | obj m =>
      rcases List.mem_cons.mp (JObj.keys_set_subset _ _ _ hP) with hh | hh
      · exact Or.inr ⟨rfl, hh⟩
      · exact Or.inl hh
    | null =>
      rcases List.mem_cons.mp (JObj.keys_set_subset _ _ _ hP) with hh | hh
      · exact Or.inr ⟨rfl, hh⟩
      · exact Or.inl hh
    | bool b =>
      rcases List.mem_cons.mp (JObj.keys_set_subset _ _ _ hP) with hh | hh
      · exact Or.inr ⟨rfl, hh⟩
      · exact Or.inl hh
    | num q =>
      rcases List.mem_cons.mp (JObj.keys_set_subset _ _ _ hP) with hh | hh
      · exact Or.inr ⟨rfl, hh⟩
      · exact Or.inl hh
    | str s =>
      rcases List.mem_cons.mp (JObj.keys_set_subset _ _ _ hP) with hh | hh
      · exact Or.inr ⟨rfl, hh⟩
      · exact Or.inl hh
    | arr xs =>
      rcases List.mem_cons.mp (JObj.keys_set_subset _ _ _ hP) with hh | hh
      · exact Or.inr ⟨rfl, hh⟩
      · exact Or.inl hh

theorem mergeServer_paths_keys (instName : String) (ov : Option Overlay) (acc : MergeAcc)
    (name : String) (spec : Json) :
    ∀ P ∈ (mergeServer instName ov acc name spec).paths.keys,
      P ∈ acc.paths.keys ∨
      ∃ raw, raw ∈ (pathsOf spec).keys ∧
        P = String.mk ('/' :: trimLeftSlashes name.toList ++ ensureLeadingSlash raw.toList) ∧
        allowedGo ov instName name (String.mk (toolNameFromRawPath raw.toList)) = true := by
  have haux : ∀ (pairs : List (String × Json)) (acc0 : MergeAcc),
      (∀ p ∈ pairs, p.1 ∈ (pathsOf spec).keys) →
      ∀ P ∈ ((pairs.foldl (fun a p => mergePathEntry instName name ov a p.1 p.2) acc0)).paths.keys,
        P ∈ acc0.paths.keys ∨
        ∃ raw, raw ∈ (pathsOf spec).keys ∧
          P = String.mk ('/' :: trimLeftSlashes name.toList ++ ensureLeadingSlash raw.toList) ∧
          allowedGo ov instName name (String.mk (toolNameFromRawPath raw.toList)) = true := by
    intro pairs
    induction pairs with
    | nil => intro acc0 _ P hP; exact Or.inl hP
    | cons hd tl ih =>
      intro acc0 hmem P hP
      rw [List.foldl_cons] at hP
      rcases ih _ (fun p hp => hmem p (List.mem_cons_of_mem hd hp)) P hP with h2 | h2
      · rcases mergePathEntry_keys_prop instName name ov acc0 hd.1 hd.2 P h2 with h3 | ⟨hA, hEq⟩
        · exact Or.inl h3
        · exact Or.inr ⟨hd.1, hmem hd (List.mem_cons_self hd tl), hEq, hA⟩
      · exact Or.inr h2
  intro P hP
  simp only [mergeServer] at hP
  have hmemk : ∀ p ∈ (pathsOf (rewriteRefs name (buildLocalKeys spec) spec)).toPairs,
      p.1 ∈ (pathsOf spec).keys := by
    intro p hp
    have := JObj.mem_keys_of_mem_toPairs _ p hp
    rwa [pathsOf_rewriteRefs, keys_rewriteRefsObj] at this
  rcases haux _ _ hmemk P hP with h | h
  · exact Or.inl h
  · exact Or.inr h

theorem merge_fold_paths_keys (instName : String) (ov : Option Overlay)
    (fetch : String → Json) :
    ∀ (names : List String) (acc : MergeAcc),
    ∀ P ∈ ((names.foldl (fun a n => mergeServer instName ov a n (fetch n)) acc)).paths.keys,
      P ∈ acc.paths.keys ∨
      ∃ s, s ∈ names ∧ ∃ raw, raw ∈ (pathsOf (fetch s)).keys ∧
        P = String.mk ('/' :: trimLeftSlashes s.toList ++ ensureLeadingSlash raw.toList) ∧
        allowedGo ov instName s (String.mk (toolNameFromRawPath raw.toList)) = true := by
  intro names
  induction names with
  | nil => intro acc P h; exact Or.inl h
  | cons hd tl ih =>
    intro acc P h
    rw [List.foldl_cons] at h
    rcases ih _ P h with h2 | ⟨s, hs, rest⟩
    · rcases mergeServer_paths_keys instName ov acc hd (fetch hd) P h2 with h3 | ⟨raw, hraw, hEq, hA⟩
      · exact Or.inl h3
      · exact Or.inr ⟨hd, List.mem_cons_self hd tl, raw, hraw, hEq, hA⟩
    · exact Or.inr ⟨s, List.mem_cons_of_mem hd hs, rest⟩

/-- C5: every path key of the merged document is `"/" ++ s ++ rawPath` for a
server `s` of the instance's config that the overlay does not disable, where
`rawPath` is a path key of that server's fetched document and
`allowed(inst, s, toolName(rawPath))` holds (part_005 lines 1420-1530).  The
hypotheses pin the well-formed shape the gateway guarantees: server names do
not begin with `/` and fetched path keys do. -/
theorem C5_merged_path_shape (instName : String) (cfgNames : List String)
    (fetch : String → Json) (ov : Option Overlay)
    (hnames : ∀ s ∈ cfgNames, trimLeftSlashes s.toList = s.toList)
    (hpaths : ∀ s ∈ cfgNames, ∀ raw ∈ (pathsOf (fetch s)).keys,
      ensureLeadingSlash raw.toList = raw.toList) :
    ∀ P ∈ (mergeOpenAPIGo instName cfgNames fetch ov).paths.keys,
      ∃ s raw, s ∈ cfgNames ∧
        (match ov with
         | some o => disabledLookup o instName s
         | none => false) = false ∧
        raw ∈ (pathsOf (fetch s)).keys ∧
        P = "/" ++ s ++ raw ∧
        allowedGo ov instName s (String.mk (toolNameFromRawPath raw.toList)) = true := by
  intro P hP
  unfold mergeOpenAPIGo at hP
  rcases merge_fold_paths_keys instName ov fetch _ emptyMergeAcc P hP with h | ⟨s, hs, raw, hraw, hEq, hA⟩
  · simp [emptyMergeAcc, JObj.keys] at h
  · have hsf : s ∈ cfgNames.filter (fun n =>
        !(match ov with
          | some o => disabledLookup o instName n
          | none => false)) := (mem_sortStringsGo s _).mp hs
    have hmem := (List.mem_filter.mp hsf).1
    have hdis := (List.mem_filter.mp hsf).2
    refine ⟨s, raw, hmem, ?_, hraw, ?_, hA⟩
    · simpa using hdis
    · rw [hEq, hnames s hmem, hpaths s hmem raw hraw]
      rfl

def fetchC5 : String → Json :=
  fun _ => .obj (jobjOf [("paths", .obj (jobjOf [("/t", .obj .nil)]))])

theorem C5_merged_path_shape_witness :
    ∃ s raw, s ∈ ["srv"] ∧
      (match (none : Option Overlay) with
       | some o => disabledLookup o "i" s
       | none => false) = false ∧
      raw ∈ (pathsOf (fetchC5 s)).keys ∧
      ("/srv/t" : String) = "/" ++ s ++ raw ∧
      allowedGo none "i" s (String.mk (toolNameFromRawPath raw.toList)) = true :=
  C5_merged_path_shape "i" ["srv"] fetchC5 none (by decide) (by decide) "/srv/t" (by decide)

/- ## Claim C6: operationId prefixing and (non-)uniqueness -/

/-- The per-operation suffix chosen by part_005 lines 1501-1506: the original
`operationId` when present and non-empty, else
`<methodLower>_<sanitizedRawPath>`. -/
def opIdSuffix (method rawPath : String) (om : JObj) : String :=
  match om.find? "operationId" with
  | some (.str oid) =>
    if oid ≠ "" then oid
    else String.mk (goToLower method.toList) ++ "_" ++ String.mk (sanitizeForID rawPath.toList)
  | _ => String.mk (goToLower method.toList) ++ "_" ++ String.mk (sanitizeForID rawPath.toList)

theorem strAppendAssoc (a b c : String) : a ++ b ++ c = a ++ (b ++ c) := by
  show String.mk ((a.data ++ b.data) ++ c.data) = String.mk (a.data ++ (b.data ++ c.data))
  rw [List.append_assoc]

theorem stampOpId_find (name method rawPath : String) (om : JObj) :
    (stampOpId name method rawPath om).find? "operationId" =
      some (.str (name ++ "__" ++ opIdSuffix method rawPath om)) := by
  unfold stampOpId opIdSuffix
  cases h : om.find? "operationId" with
  | none => simp [JObj.find?_set_self, strAppendAssoc]
  | some v =>
    cases v with
    | str oid =>
      by_cases he : oid = ""
      · simp [he, JObj.find?_set_self, strAppendAssoc]
      · simp [he, JObj.find?_set_self, strAppendAssoc]
    | null => simp [JObj.find?_set_self, strAppendAssoc]
    | bool b => simp [JObj.find?_set_self, strAppendAssoc]
    | num q => simp [JObj.find?_set_self, strAppendAssoc]
    | arr xs => simp [JObj.find?_set_self, strAppendAssoc]
    | obj o => simp [JObj.find?_set_self, strAppendAssoc]

theorem stampOpId_eq_set (name method rawPath : String) (om : JObj) :
    ∃ x, stampOpId name method rawPath om = om.set "operationId" x := by
  unfold stampOpId
  cases h : om.find? "operationId" with
  | none => exact ⟨_, rfl⟩
  | some v =>
    cases v with
    | str oid =>
      exact ⟨if oid ≠ "" then .str (name ++ "__" ++ oid)
             else .str (name ++ "__" ++ String.mk (goToLower method.toList) ++ "_" ++
               String.mk (sanitizeForID rawPath.toList)),
        (apply_ite (fun x => om.set "operationId" x) _ _ _).symm⟩
    | null => exact ⟨_, rfl⟩
    | bool b => exact ⟨_, rfl⟩
    | num q => exact ⟨_, rfl⟩
    | arr xs => exact ⟨_, rfl⟩
    | obj o => exact ⟨_, rfl⟩

theorem stampOpId_find_other (name method rawPath : String) (om : JObj) (k : String)
    (hk : k ≠ "operationId") :
    (stampOpId name method rawPath om).find? k = om.find? k := by
  obtain ⟨x, hx⟩ := stampOpId_eq_set name method rawPath om
  rw [hx]
  exact JObj.find?_set_ne _ _ _ _ hk

theorem processOp_obj_fst (instName name rawPath toolName newPath : String)
    (ov : Option Overlay) (method : String) (om : JObj) :
    (processOp instName name rawPath toolName newPath ov method (.obj om)).1 =
      .obj ((match descOverrideLookup ov instName name toolName with
             | some d =>
               if d ≠ "" then (stampOpId name method rawPath om).set "description" (.str d)
               else stampOpId name method rawPath om
             | none => stampOpId name method rawPath om).del "security") := rfl

theorem processOp_opId (instName name rawPath toolName newPath : String) (ov : Option Overlay)
    (method : String) (om : JObj) :
    ∃ om3 : JObj, (processOp instName name rawPath toolName newPath ov method (.obj om)).1 =
        .obj om3 ∧
      om3.find? "operationId" =
        some (.str (name ++ "__" ++ opIdSuffix method rawPath om)) := by
  cases hd : descOverrideLookup ov instName name toolName with
  | none =>
    have h1 : (processOp instName name rawPath toolName newPath ov method (.obj om)).1 =
        .obj ((stampOpId name method rawPath om).del "security") := by
      rw [processOp_obj_fst, hd]
    refine ⟨_, h1, ?_⟩
    rw [JObj.find?_del_ne _ _ _ (by decide)]
    exact stampOpId_find name method rawPath om
  | some d =>
    have h1 : (processOp instName name rawPath toolName newPath ov method (.obj om)).1 =
        .obj ((if d ≠ "" then (stampOpId name method rawPath om).set "description" (.str d)
               else stampOpId name method rawPath om).del "security") := by
      rw [processOp_obj_fst, hd]
    by_cases he : d = ""
    · rw [if_neg (by simp [he])] at h1
      refine ⟨_, h1, ?_⟩
      rw [JObj.find?_del_ne _ _ _ (by decide)]
      exact stampOpId_find name method rawPath om
    · rw [if_pos he] at h1
      refine ⟨_, h1, ?_⟩
      rw [JObj.find?_del_ne _ _ _ (by decide)]
      rw [JObj.find?_set_ne _ _ _ _ (by decide)]
      exact stampOpId_find name method rawPath om

theorem opIdsOfItem_processed (instName name rawPath toolName newPath : String)
    (ov : Option Overlay) : ∀ (m : JObj),
    ∀ oid ∈ opIdsOfItem (processPathItemOps instName name rawPath toolName newPath ov m).1,
      ∃ rest, oid = name ++ "__" ++ rest
  | .nil, oid, h => by simp [processPathItemOps, opIdsOfItem] at h
  | .cons method op tl, oid, h => by
    simp only [processPathItemOps] at h
    rcases List.mem_append.mp h with h2 | h2
    · cases op with
      | obj om =>
        obtain ⟨om3, heq, hfind⟩ := processOp_opId instName name rawPath toolName newPath ov method om
        rw [heq] at h2
        simp only [hfind] at h2
        rcases List.mem_singleton.mp h2 with rfl
        exact ⟨opIdSuffix method rawPath om, rfl⟩
      | null => simp [processOp] at h2
      | bool b => simp [processOp] at h2
      | num q => simp [processOp] at h2
      | str s => simp [processOp] at h2
      | arr xs => simp [processOp] at h2
    · exact opIdsOfItem_processed instName name rawPath toolName newPath ov tl oid h2

theorem opIdsOfPaths_set_subset : ∀ (m : JObj) (k : String) (v : Json),
    ∀ oid ∈ opIdsOfPaths (m.set k v),
      oid ∈ (match v with
             | .obj im => opIdsOfItem im
             | _ => []) ∨ oid ∈ opIdsOfPaths m
  | .nil, k, v, oid, h => by
    simp only [JObj.set, opIdsOfPaths] at h
    rcases List.mem_append.mp h with h2 | h2
    · exact Or.inl h2
    · simp [opIdsOfPaths] at h2
  | .cons k1 v1 tl, k, v, oid, h => by
    by_cases hk : k1 = k
    · simp only [JObj.set, hk, if_true, opIdsOfPaths] at h
      rcases List.mem_append.mp h with h2 | h2
      · exact Or.inl h2
      · exact Or.inr (by simp [opIdsOfPaths, List.mem_append]; exact Or.inr h2)
    · simp only [JObj.set, hk, if_false, opIdsOfPaths] at h
      rcases List.mem_append.mp h with h2 | h2
      · exact Or.inr (by simp [opIdsOfPaths, List.mem_append]; exact Or.inl h2)
      · rcases opIdsOfPaths_set_subset tl k v oid h2 with h3 | h3
        · exact Or.inl h3
        · exact Or.inr (by simp [opIdsOfPaths, List.mem_append]; exact Or.inr h3)

theorem mergePathEntry_opIds (instName name : String) (ov : Option Overlay) (acc : MergeAcc)
    (rawPath : String) (v : Json) :
    ∀ oid ∈ opIdsOfPaths (mergePathEntry instName name ov acc rawPath v).paths,
      oid ∈ opIdsOfPaths acc.paths ∨ ∃ rest, oid = name ++ "__" ++ rest := by
  intro oid h
  cases hA : allowedGo ov instName name (String.mk (toolNameFromRawPath rawPath.toList)) with
  | false =>
    simp only [mergePathEntry, hA] at h
    simp only [if_true] at h
    exact Or.inl h
  | true =>
    simp only [mergePathEntry, hA, Bool.true_eq_false, if_false] at h
    cases v with
    | obj m =>
      rcases opIdsOfPaths_set_subset _ _ _ oid h with h2 | h2
      · simp only [] at h2
        exact Or.inr (opIdsOfItem_processed instName name rawPath _ _ ov m oid h2)
      · exact Or.inl h2
    | null =>
      rcases opIdsOfPaths_set_subset _ _ _ oid h with h2 | h2
      · simp at h2
      · exact Or.inl h2
    | bool b =>
      rcases opIdsOfPaths_set_subset _ _ _ oid h with h2 | h2
      · simp at h2
      · exact Or.inl h2
    | num q =>
      rcases opIdsOfPaths_set_subset _ _ _ oid h with h2 | h2
      · simp at h2
      · exact Or.inl h2
    | str s =>
      rcases opIdsOfPaths_set_subset _ _ _ oid h with h2 | h2
      · simp at h2
      · exact Or.inl h2
    | arr xs =>
      rcases opIdsOfPaths_set_subset _ _ _ oid h with h2 | h2
      · simp at h2
      · exact Or.inl h2

theorem mergeServer_opIds (instName : String) (ov : Option Overlay) (acc : MergeAcc)
    (name : String) (spec : Json) :
    ∀ oid ∈ opIdsOfPaths (mergeServer instName ov acc name spec).paths,
      oid ∈ opIdsOfPaths acc.paths ∨ ∃ rest, oid = name ++ "__" ++ rest := by
  have haux : ∀ (pairs : List (String × Json)) (acc0 : MergeAcc),
      ∀ oid ∈ opIdsOfPaths
        ((pairs.foldl (fun a p => mergePathEntry instName name ov a p.1 p.2) acc0)).paths,
        oid ∈ opIdsOfPaths acc0.paths ∨ ∃ rest, oid = name ++ "__" ++ rest := by
    intro pairs
    induction pairs with
    | nil => intro acc0 oid h; exact Or.inl h
    | cons hd tl ih =>
      intro acc0 oid h
      rw [List.foldl_cons] at h
      rcases ih _ oid h with h2 | h2
      · exact mergePathEntry_opIds instName name ov acc0 hd.1 hd.2 oid h2
      · exact Or.inr h2
  intro oid h
  simp only [mergeServer] at h
  rcases haux _ _ oid h with h2 | h2
  · exact Or.inl h2
  · exact Or.inr h2

/-- C6 counterexample: two raw paths that sanitize identically and carry no
source `operationId` receive the same synthesized id, so merged operationIds
are not unique (part_005 lines 1501-1506 and 1697-1707). -/
def fetchC6 : String → Json :=
  fun _ => .obj (jobjOf [("paths", .obj (jobjOf
    [("/a.b", .obj (jobjOf [("get", .obj .nil)])),
     ("/a_b", .obj (jobjOf [("get", .obj .nil)]))]))])

theorem C6_duplicate_opIds_counterexample :
    opIdsOfPaths (mergeOpenAPIGo "i" ["s"] fetchC6 none).paths =
      ["s__get__a_b", "s__get__a_b"] ∧
    ¬ (opIdsOfPaths (mergeOpenAPIGo "i" ["s"] fetchC6 none).paths).Nodup := by
  constructor
  · decide
  · decide

/-- C6 (amended): every operationId in the merged document begins with
`<s>__` for its contributing (enabled) server `s`, with the suffix being the
original operationId when present and non-empty, else the synthesized
`<methodLower>_<sanitizedPath>`; uniqueness across the document is NOT
enforced — sanitization collisions or duplicated source ids produce
duplicate operationIds. -/
theorem C6_opId_prefix_amended :
    (∀ (instName : String) (cfgNames : List String) (fetch : String → Json)
        (ov : Option Overlay),
      ∀ oid ∈ opIdsOfPaths (mergeOpenAPIGo instName cfgNames fetch ov).paths,
        ∃ s rest, s ∈ serverNamesFiltered cfgNames ov instName ∧
          oid = s ++ "__" ++ rest) ∧
    (∀ (name method rawPath : String) (om : JObj),
      (stampOpId name method rawPath om).find? "operationId" =
        some (.str (name ++ "__" ++ opIdSuffix method rawPath om))) := by
  constructor
  · intro instName cfgNames fetch ov oid hmem
    unfold mergeOpenAPIGo at hmem
    have haux : ∀ (names : List String) (acc : MergeAcc),
        ∀ oid2 ∈ opIdsOfPaths
          ((names.foldl (fun a n => mergeServer instName ov a n (fetch n)) acc)).paths,
          oid2 ∈ opIdsOfPaths acc.paths ∨
          ∃ s rest, s ∈ names ∧ oid2 = s ++ "__" ++ rest := by
      intro names
      induction names with
      | nil => intro acc oid2 h; exact Or.inl h
      | cons hd tl ih =>
        intro acc oid2 h
        rw [List.foldl_cons] at h
        rcases ih _ oid2 h with h2 | ⟨s, rest, hs, hEq⟩
        · rcases mergeServer_opIds instName ov acc hd (fetch hd) oid2 h2 with h3 | ⟨rest, hEq⟩
          · exact Or.inl h3
          · exact Or.inr ⟨hd, rest, List.mem_cons_self hd tl, hEq⟩
        · exact Or.inr ⟨s, rest, List.mem_cons_of_mem hd hs, hEq⟩
    rcases haux _ emptyMergeAcc oid hmem with h | ⟨s, rest, hs, hEq⟩
    · simp [emptyMergeAcc, opIdsOfPaths] at h
    · exact ⟨s, rest, hs, hEq⟩
  · intro name method rawPath om
    exact stampOpId_find name method rawPath om

theorem C6_opId_prefix_amended_witness :
    (∃ s rest, s ∈ serverNamesFiltered ["s"] none "i" ∧
      ("s__get__a_b" : String) = s ++ "__" ++ rest) ∧
    (stampOpId "s" "get" "/a.b" .nil).find? "operationId" =
      some (.str ("s" ++ "__" ++ opIdSuffix "get" "/a.b" .nil)) :=
  ⟨C6_opId_prefix_amended.1 "i" ["s"] fetchC6 none "s__get__a_b" (by decide),
   C6_opId_prefix_amended.2 "s" "get" "/a.b" .nil⟩

/- ## Claim C9: description length warnings -/

theorem processOp_obj_snd (instName name rawPath toolName newPath : String)
    (ov : Option Overlay) (method : String) (om : JObj) :
    (processOp instName name rawPath toolName newPath ov method (.obj om)).2 =
      (match (match descOverrideLookup ov instName name toolName with
              | some d =>
                if d ≠ "" then (stampOpId name method rawPath om).set "description" (.str d)
                else stampOpId name method rawPath om
              | none => stampOpId name method rawPath om).find? "description" with
       | some (.str desc) =>
         if descLimitGo < desc.length then [mkDescWarn method newPath toolName desc.length]
         else []
       | _ => []) := rfl

/-- A combining acute accent; with `isCombiningMark` it witnesses the
rune/grapheme gap. -/
def combAcute : Char := Char.ofNat 0x301

def descX : String := String.mk (List.replicate 299 'a' ++ ['e', combAcute, combAcute])

def fetchC9 : String → Json :=
  fun _ => .obj (jobjOf [("paths", .obj (jobjOf
    [("/t", .obj (jobjOf [("post", .obj (jobjOf [("description", .str descX)]))]))]))])

/-- C9 counterexample: a description of exactly 300 grapheme clusters (299
ASCII letters plus one letter bearing two combining marks, 302 runes) DOES
get a length warning, because part_005 line 1514 measures
`len([]rune(desc))`, not graphemes; the claim says 300 graphemes produce no
warning. -/
theorem C9_grapheme_counterexample :
    graphemeCount descX = 300 ∧
    findS (mergeOpenAPIGo "inst" ["srv"] fetchC9 none).warns "srv" =
      some ["POST /srv/t (tool=t): description length 302 > 300"] := by
  constructor
  · decide
  · decide

/-- C9 (amended): the warning is keyed to the RUNE count of the final
description (Go `len([]rune(desc))`, here `String.length` over `Char`s), not
to graphemes: a merged operation whose final description has more than 300
runes gets exactly one warning `METHOD /path (tool=T): description length
N > 300` with N the rune count, and one with at most 300 runes gets none —
whether the description comes from the source operation (override absent) or
from a non-empty overlay override. -/
theorem C9_desc_warning_amended :
    (∀ (instName name rawPath toolName newPath method : String) (ov : Option Overlay)
        (om : JObj) (desc : String),
      descOverrideLookup ov instName name toolName = none →
      om.find? "description" = some (.str desc) →
      (processOp instName name rawPath toolName newPath ov method (.obj om)).2 =
        (if 300 < desc.length then [mkDescWarn method newPath toolName desc.length]
         else [])) ∧
    (∀ (instName name rawPath toolName newPath method : String) (ov : Option Overlay)
        (om : JObj) (d : String),
      descOverrideLookup ov instName name toolName = some d → d ≠ "" →
      (processOp instName name rawPath toolName newPath ov method (.obj om)).2 =
        (if 300 < d.length then [mkDescWarn method newPath toolName d.length]
         else [])) := by
  constructor
  · intro instName name rawPath toolName newPath method ov om desc hd hdesc
    rw [processOp_obj_snd, hd]
    show (match (stampOpId name method rawPath om).find? "description" with
          | some (.str desc) =>
            if descLimitGo < desc.length then [mkDescWarn method newPath toolName desc.length]
            else []
          | _ => []) =
        (if 300 < desc.length then [mkDescWarn method newPath toolName desc.length] else [])
    rw [stampOpId_find_other name method rawPath om "description" (by decide), hdesc]
    rfl
  · intro instName name rawPath toolName newPath method ov om d hd hne
    rw [processOp_obj_snd, hd]
    show (match ((if d ≠ "" then (stampOpId name method rawPath om).set "description" (.str d)
                  else stampOpId name method rawPath om)).find? "description" with
          | some (.str desc) =>
            if descLimitGo < desc.length then [mkDescWarn method newPath toolName desc.length]
            else []
          | _ => []) =
        (if 300 < d.length then [mkDescWarn method newPath toolName d.length] else [])
    rw [if_pos hne, JObj.find?_set_self]
    rfl

def ovC9 : Overlay :=
  { disabled := none, allow := none, deny := none,
    descriptions := some [("i", [("s", [("t", "ok")])])] }

theorem C9_desc_warning_amended_witness :
    (processOp "i" "s" "/t" "t" "/s/t" none "get"
        (.obj (jobjOf [("description", .str (String.mk (List.replicate 301 'a')))]))).2 =
      (if 300 < (String.mk (List.replicate 301 'a')).length
       then [mkDescWarn "get" "/s/t" "t" (String.mk (List.replicate 301 'a')).length]
       else []) ∧
    (processOp "i" "s" "/t" "t" "/s/t" (some ovC9) "get" (.obj .nil)).2 =
      (if 300 < ("ok" : String).length then [mkDescWarn "get" "/s/t" "t" ("ok" : String).length]
       else []) :=
  ⟨C9_desc_warning_amended.1 "i" "s" "/t" "t" "/s/t" "get" none _ _ rfl (by decide),
   C9_desc_warning_amended.2 "i" "s" "/t" "t" "/s/t" "get" (some ovC9) .nil "ok" rfl (by decide)⟩
